import Mathlib

/-!
Verification of the AlphaFlow workflow engine core.

This file contains a shallow embedding, in Lean 4, of the AlphaFlow engine's
task queue, task store, task dispatcher, workflow executor and JMESPath-style
mapping engine, translated from the Rust sources
(`alphaflow-engine/store/src/model.rs`, `alphaflow-engine/store/src/task_store.rs`,
`alphaflow-engine/queue/src/task_queue.rs`, `alphaflow-engine/queue/src/task_dispatcher.rs`,
`alphaflow-workflow/src/workflow.rs`, `alphaflow-jmes/src/interpreter.rs`,
`alphaflow-jmes/src/jmes_runtime.rs`), together with theorems checking the
natural-language specification of the engine against that embedding.

Modelling conventions:
* Rust `HashMap`s are modelled as association lists (`alookup`, `aset`, `aerase`);
  `BinaryHeap` is modelled as a list together with max-extraction (`popMaxBy`),
  which mirrors the heap's pop/peek contract (pop returns a greatest element).
* Machine integers (`u32` task ids) are modelled as `Nat`; where wrap-around
  matters (the `AtomicU32` id counter) the reduction modulo 2^32 is explicit.
* JSON numbers (`serde_json::Number`, `f64`) are modelled at integer precision
  (`Int`); no claim checked here depends on non-integral numerics.
* Asynchronous node execution is modelled by an oracle function passed to the
  dispatcher / executor; timeouts and channel sends become pure data.
-/

namespace AlphaFlow

/-! ## Association lists (model of Rust `HashMap` / `BTreeMap`) -/

/-- Lookup in an association list; models `HashMap::get`. -/
def alookup {κ α : Type} [DecidableEq κ] : List (κ × α) → κ → Option α
  | [], _ => none
  | (k, v) :: t, key => if k = key then some v else alookup t key

/-- Insert-or-replace in an association list; models `HashMap::insert`
(replacing the value when the key is present, appending otherwise). -/
def aset {κ α : Type} [DecidableEq κ] : List (κ × α) → κ → α → List (κ × α)
  | [], key, v => [(key, v)]
  | (k, w) :: t, key, v => if k = key then (key, v) :: t else (k, w) :: aset t key v

/-- Remove a key from an association list; models `HashMap::remove`
(removing the first occurrence of the key). -/
def aerase {κ α : Type} [DecidableEq κ] : List (κ × α) → κ → List (κ × α)
  | [], _ => []
  | (k, w) :: t, key => if k = key then t else (k, w) :: aerase t key

/-- Keys of an association list. -/
def akeys {κ α : Type} [DecidableEq κ] (l : List (κ × α)) : List κ := l.map Prod.fst

theorem alookup_aset_self {κ α : Type} [DecidableEq κ] (l : List (κ × α)) (k : κ) (v : α) :
    alookup (aset l k v) k = some v := by
  induction l with
  | nil => simp [aset, alookup]
  | cons hd t ih =>
    obtain ⟨k1, v1⟩ := hd
    by_cases h : k1 = k <;> simp [aset, alookup, h, ih]

theorem alookup_aset_ne {κ α : Type} [DecidableEq κ] (l : List (κ × α)) (k k2 : κ) (v : α)
    (h : k2 ≠ k) : alookup (aset l k v) k2 = alookup l k2 := by
  have h3 : k ≠ k2 := Ne.symm h
  induction l with
  | nil => simp [aset, alookup, h3]
  | cons hd t ih =>
    obtain ⟨k1, v1⟩ := hd
    by_cases h1 : k1 = k
    · subst h1
      simp [aset, alookup, h3]
    · simp [aset, alookup, h1, ih]

theorem alookup_aerase_ne {κ α : Type} [DecidableEq κ] (l : List (κ × α)) (k k2 : κ)
    (h : k2 ≠ k) : alookup (aerase l k) k2 = alookup l k2 := by
  have h3 : k ≠ k2 := Ne.symm h
  induction l with
  | nil => simp [aerase]
  | cons hd t ih =>
    obtain ⟨k1, v1⟩ := hd
    by_cases h1 : k1 = k
    · subst h1
      simp [aerase, alookup, h3]
    · simp [aerase, alookup, h1, ih]

theorem mem_aset_elim {κ α : Type} [DecidableEq κ] {l : List (κ × α)} {k : κ} {v : α}
    {p : κ × α} (hp : p ∈ aset l k v) : p = (k, v) ∨ p ∈ l := by
  induction l with
  | nil => simpa [aset] using hp
  | cons hd t ih =>
    obtain ⟨k1, v1⟩ := hd
    by_cases h1 : k1 = k
    · simp only [aset, if_pos h1, List.mem_cons] at hp
      rcases hp with h | h
      · exact Or.inl h
      · exact Or.inr (List.mem_cons_of_mem _ h)
    · simp only [aset, if_neg h1, List.mem_cons] at hp
      rcases hp with h | h
      · exact Or.inr (by simp [h])
      · rcases ih h with h2 | h2
        · exact Or.inl h2
        · exact Or.inr (List.mem_cons_of_mem _ h2)

theorem mem_aerase_elim {κ α : Type} [DecidableEq κ] {l : List (κ × α)} {k : κ}
    {p : κ × α} (hp : p ∈ aerase l k) : p ∈ l := by
  induction l with
  | nil => simp [aerase] at hp
  | cons hd t ih =>
    obtain ⟨k1, v1⟩ := hd
    by_cases h1 : k1 = k
    · simp only [aerase, if_pos h1] at hp
      exact List.mem_cons_of_mem _ hp
    · simp only [aerase, if_neg h1, List.mem_cons] at hp
      rcases hp with h | h
      · simp [h]
      · exact List.mem_cons_of_mem _ (ih h)

theorem akeys_aset_of_mem {κ α : Type} [DecidableEq κ] (l : List (κ × α)) (k : κ) (v : α)
    (h : (alookup l k).isSome) : akeys (aset l k v) = akeys l := by
  induction l with
  | nil => simp [alookup] at h
  | cons hd t ih =>
    obtain ⟨k1, v1⟩ := hd
    by_cases h1 : k1 = k
    · subst h1
      simp [aset, akeys]
    · simp only [alookup, if_neg h1] at h
      simp [aset, akeys, h1, ih h] at *
      exact ih h

theorem akeys_aset_of_not_mem {κ α : Type} [DecidableEq κ] (l : List (κ × α)) (k : κ) (v : α)
    (h : alookup l k = none) : akeys (aset l k v) = akeys l ++ [k] := by
  induction l with
  | nil => simp [aset, akeys]
  | cons hd t ih =>
    obtain ⟨k1, v1⟩ := hd
    by_cases h1 : k1 = k
    · simp [alookup, h1] at h
    · simp only [alookup, if_neg h1] at h
      have h2 := ih h
      simp only [akeys] at h2
      simp [aset, akeys, h1, h2]

theorem akeys_aerase_sublist {κ α : Type} [DecidableEq κ] (l : List (κ × α)) (k : κ) :
    (akeys (aerase l k)).Sublist (akeys l) := by
  induction l with
  | nil => simp [aerase]
  | cons hd t ih =>
    obtain ⟨k1, v1⟩ := hd
    by_cases h1 : k1 = k
    · simp only [aerase, if_pos h1, akeys, List.map_cons]
      exact List.sublist_cons_of_sublist _ (List.Sublist.refl _)
    · simp only [aerase, if_neg h1, akeys, List.map_cons]
      exact List.Sublist.cons₂ _ ih

theorem alookup_isSome_of_mem_akeys {κ α : Type} [DecidableEq κ] {l : List (κ × α)} {k : κ}
    (h : k ∈ akeys l) : (alookup l k).isSome := by
  induction l with
  | nil => simp [akeys] at h
  | cons hd t ih =>
    obtain ⟨k1, v1⟩ := hd
    by_cases h1 : k1 = k
    · simp [alookup, h1]
    · simp only [akeys, List.map_cons, List.mem_cons] at h
      rcases h with h | h
      · exact absurd h.symm h1
      · simpa [alookup, h1] using ih h

theorem mem_akeys_of_alookup_isSome {κ α : Type} [DecidableEq κ] {l : List (κ × α)} {k : κ}
    (h : (alookup l k).isSome) : k ∈ akeys l := by
  induction l with
  | nil => simp [alookup] at h
  | cons hd t ih =>
    obtain ⟨k1, v1⟩ := hd
    by_cases h1 : k1 = k
    · simp [akeys, h1]
    · simp only [alookup, if_neg h1] at h
      have h2 := ih h
      simp only [akeys, List.map_cons, List.mem_cons]
      exact Or.inr h2

theorem alookup_eq_some_mem {κ α : Type} [DecidableEq κ] {l : List (κ × α)} {k : κ}
    {v : α} (h : alookup l k = some v) : (k, v) ∈ l := by
  induction l with
  | nil => simp [alookup] at h
  | cons hd t ih =>
    obtain ⟨k1, v1⟩ := hd
    by_cases h1 : k1 = k
    · subst h1
      simp only [alookup, if_pos rfl] at h
      simp at h
      simp [h]
    · simp only [alookup, if_neg h1] at h
      exact List.mem_cons_of_mem _ (ih h)

theorem not_mem_akeys_of_alookup_eq_none {κ α : Type} [DecidableEq κ]
    {l : List (κ × α)} {k : κ} (h : alookup l k = none) : k ∉ akeys l := by
  intro hmem
  have h2 := alookup_isSome_of_mem_akeys hmem
  rw [h] at h2
  exact Bool.noConfusion h2

theorem mem_aerase_ne_key {κ α : Type} [DecidableEq κ] {l : List (κ × α)} {k : κ}
    {p : κ × α} (hnd : (akeys l).Nodup) (hp : p ∈ aerase l k) : p.1 ≠ k := by
  induction l with
  | nil => simp [aerase] at hp
  | cons hd t ih =>
    obtain ⟨k1, v1⟩ := hd
    simp only [akeys, List.map_cons, List.nodup_cons] at hnd
    by_cases h1 : k1 = k
    · subst h1
      simp only [aerase, if_pos rfl] at hp
      intro hcon
      exact hnd.1 (by simpa [akeys, ← hcon] using List.mem_map_of_mem Prod.fst hp)
    · simp only [aerase, if_neg h1, List.mem_cons] at hp
      rcases hp with h | h
      · subst h
        exact h1
      · exact ih (by simpa [akeys] using hnd.2) h

/-! ## Max extraction from a list (model of Rust `BinaryHeap::pop` / `peek`)

A Rust `BinaryHeap` is modelled as a plain list of its elements; `pop`
extracts a greatest element with respect to the heap's strict order `lt`,
and `peek` returns that same element without removing it. -/

/-- Extract a maximal element (with respect to the strict order `lt`) and the
remaining elements. Models `BinaryHeap::pop` on a heap holding `l`. -/
def popMaxBy {α : Type} (lt : α → α → Bool) : List α → Option (α × List α)
  | [] => none
  | x :: xs =>
    match popMaxBy lt xs with
    | none => some (x, [])
    | some (m, rest) => if lt x m then some (m, x :: rest) else some (x, xs)

/-- Models `BinaryHeap::peek`: the element `pop` would return. -/
def peekMaxBy {α : Type} (lt : α → α → Bool) (l : List α) : Option α :=
  (popMaxBy lt l).map Prod.fst

theorem popMaxBy_eq_none_iff {α : Type} (lt : α → α → Bool) (l : List α) :
    popMaxBy lt l = none ↔ l = [] := by
  cases l with
  | nil => simp [popMaxBy]
  | cons x xs =>
    simp only [popMaxBy]
    cases popMaxBy lt xs with
    | none => simp
    | some p =>
      obtain ⟨m, rest⟩ := p
      by_cases h : lt x m <;> simp [h]

theorem popMaxBy_perm {α : Type} (lt : α → α → Bool) :
    ∀ (l : List α) (m : α) (rest : List α),
      popMaxBy lt l = some (m, rest) → l.Perm (m :: rest)
  | [], m, rest => by simp [popMaxBy]
  | x :: xs, m, rest => by
    intro h
    cases hxs : popMaxBy lt xs with
    | none =>
      have hnil : xs = [] := (popMaxBy_eq_none_iff lt xs).mp hxs
      subst hnil
      simp only [popMaxBy, Option.some.injEq, Prod.mk.injEq] at h
      rw [← h.1, ← h.2]
    | some p =>
      obtain ⟨m2, rest2⟩ := p
      simp only [popMaxBy, hxs] at h
      by_cases hcmp : lt x m2 = true
      · simp only [if_pos hcmp, Option.some.injEq, Prod.mk.injEq] at h
        obtain ⟨h1, h2⟩ := h
        subst h1
        subst h2
        have hp := popMaxBy_perm lt xs m2 rest2 hxs
        exact (hp.cons x).trans (List.Perm.swap m2 x rest2)
      · simp only [if_neg hcmp, Option.some.injEq, Prod.mk.injEq] at h
        obtain ⟨h1, h2⟩ := h
        subst h1
        subst h2
        exact List.Perm.refl _

theorem popMaxBy_mem {α : Type} (lt : α → α → Bool) (l : List α) (m : α)
    (rest : List α) (h : popMaxBy lt l = some (m, rest)) : m ∈ l :=
  (popMaxBy_perm lt l m rest h).symm.subset (List.mem_cons_self m rest)

/-- A strict order is heap-usable when it is asymmetric and negatively
transitive; both properties hold for the orders derived from the `Ord`
implementations in `store/src/model.rs` and `queue/src/task_queue.rs`. -/
def HeapOrder {α : Type} (lt : α → α → Bool) : Prop :=
  (∀ a b, lt a b = true → lt b a = false) ∧
  (∀ a b c, lt a b = false → lt b c = false → lt a c = false)

theorem lt_self_eq_false_of_heapOrder {α : Type} {lt : α → α → Bool}
    (h : HeapOrder lt) (a : α) : lt a a = false := by
  by_cases hc : lt a a = true
  · rw [hc]
    have h2 := h.1 a a hc
    rw [hc] at h2
    exact h2
  · simpa using hc

theorem popMaxBy_max {α : Type} {lt : α → α → Bool} (ho : HeapOrder lt) :
    ∀ (l : List α) (m : α) (rest : List α),
      popMaxBy lt l = some (m, rest) → ∀ x ∈ l, lt m x = false
  | [], m, rest => by simp [popMaxBy]
  | x :: xs, m, rest => by
    intro h y hy
    cases hxs : popMaxBy lt xs with
    | none =>
      have hnil : xs = [] := (popMaxBy_eq_none_iff lt xs).mp hxs
      subst hnil
      simp only [popMaxBy, Option.some.injEq, Prod.mk.injEq] at h
      simp only [List.mem_singleton] at hy
      subst hy
      rw [← h.1]
      exact lt_self_eq_false_of_heapOrder ho y
    | some p =>
      obtain ⟨m2, rest2⟩ := p
      simp only [popMaxBy, hxs] at h
      have ihmax : ∀ z ∈ xs, lt m2 z = false :=
        popMaxBy_max ho xs m2 rest2 hxs
      by_cases hcmp : lt x m2 = true
      · simp only [if_pos hcmp, Option.some.injEq, Prod.mk.injEq] at h
        obtain ⟨h1, _⟩ := h
        subst h1
        rcases List.mem_cons.mp hy with hy | hy
        · subst hy
          exact ho.1 y m2 hcmp
        · exact ihmax y hy
      · simp only [if_neg hcmp, Option.some.injEq, Prod.mk.injEq] at h
        obtain ⟨h1, _⟩ := h
        subst h1
        rcases List.mem_cons.mp hy with hy | hy
        · subst hy
          exact lt_self_eq_false_of_heapOrder ho y
        · exact ho.2 x m2 y (by simpa using hcmp) (ihmax y hy)

/-! ## Task model (from `alphaflow-engine/store/src/model.rs`) -/

/-- Quality-of-service classes, from `model.rs`. -/
inductive QualityOfService where
  | background
  | userInteractive
deriving DecidableEq, Repr

/-- The `Ord` implementation for `QualityOfService` in `model.rs`:
user-interactive is greater than background. -/
def QualityOfService.cmp : QualityOfService → QualityOfService → Ordering
  | .userInteractive, .userInteractive => .eq
  | .userInteractive, .background => .gt
  | .background, .userInteractive => .lt
  | .background, .background => .eq

/- Task ids are `u32` in the source (`pub type TaskId = u32`); they are
modelled as plain `Nat`.  Wrap-around of the id *counter* is modelled
explicitly in `TaskStore.nextTaskId`. -/

/-- The queue element, from `model.rs`: a task reduced to `(qos, id)`. -/
structure PendingTask where
  qos : QualityOfService
  id : Nat
deriving DecidableEq, Repr

/-- The `Ord` implementation for `PendingTask` in `model.rs`: compare QoS
first, and when the QoS is the same compare the ids. -/
def PendingTask.cmp (a b : PendingTask) : Ordering :=
  match a.qos.cmp b.qos with
  | .eq => compare a.id b.id
  | x => x

/-- Strict less-than on `PendingTask` induced by `PendingTask.cmp`.  This is
the order under which `BinaryHeap<PendingTask>` pops its greatest element. -/
def PendingTask.ltb (a b : PendingTask) : Bool :=
  PendingTask.cmp a b == Ordering.lt

/-- Numeric rank of a QoS class: background below user-interactive. -/
def QualityOfService.rank : QualityOfService → Nat
  | .background => 0
  | .userInteractive => 1

theorem compare_beq_lt_iff (a b : Nat) : (compare a b == Ordering.lt) = true ↔ a < b := by
  cases h : compare a b with
  | lt =>
    constructor
    · intro _
      exact Nat.compare_eq_lt.mp h
    · intro _
      rfl
  | eq =>
    constructor
    · intro h3
      exact absurd h3 (by decide)
    · intro h3
      have h2 := Nat.compare_eq_eq.mp h
      omega
  | gt =>
    constructor
    · intro h3
      exact absurd h3 (by decide)
    · intro h3
      have h2 := Nat.compare_eq_gt.mp h
      omega

theorem PendingTask.ltb_iff (a b : PendingTask) :
    PendingTask.ltb a b = true ↔
      (a.qos.rank < b.qos.rank ∨ (a.qos.rank = b.qos.rank ∧ a.id < b.id)) := by
  obtain ⟨qa, ia⟩ := a
  obtain ⟨qb, ib⟩ := b
  cases qa <;> cases qb <;>
    simp [PendingTask.ltb, PendingTask.cmp, QualityOfService.cmp,
      QualityOfService.rank, compare_beq_lt_iff] <;> decide

theorem ltb_false_arith {a b : PendingTask} (hab : PendingTask.ltb a b = false) :
    ¬ (a.qos.rank < b.qos.rank ∨ (a.qos.rank = b.qos.rank ∧ a.id < b.id)) := by
  intro hcon
  have h2 := (PendingTask.ltb_iff a b).mpr hcon
  rw [h2] at hab
  exact Bool.noConfusion hab

theorem PendingTask.heapOrder_ltb : HeapOrder PendingTask.ltb := by
  constructor
  · intro a b hab
    rw [PendingTask.ltb_iff] at hab
    cases hba : PendingTask.ltb b a with
    | false => rfl
    | true =>
      exfalso
      rw [PendingTask.ltb_iff] at hba
      rcases hab with h | ⟨h1, h2⟩ <;> rcases hba with h3 | ⟨h4, h5⟩ <;> omega
  · intro a b c hab hbc
    cases hac : PendingTask.ltb a c with
    | false => rfl
    | true =>
      exfalso
      have h1 := ltb_false_arith hab
      have h2 := ltb_false_arith hbc
      rw [PendingTask.ltb_iff] at hac
      push_neg at h1 h2
      rcases hac with h | ⟨h3, h4⟩ <;> omega

/-- Task payloads, from `model.rs`: textual or raw bytes. -/
inductive TaskContent where
  | text (s : String)
  | blob (bytes : List Nat)
deriving DecidableEq, Repr

/-- Task states, from `model.rs`. -/
inductive TaskState where
  | pending
  | processing
  | done
  | failure
  | cancel
  | timeout
deriving DecidableEq, Repr

/-- From `model.rs`: `TaskState::is_done`. -/
def TaskState.is_done : TaskState → Bool
  | .done => true
  | _ => false

/-- From `model.rs`: `TaskState::is_cancel`. -/
def TaskState.is_cancel : TaskState → Bool
  | .cancel => true
  | _ => false

/-- From `model.rs`: `TaskState::is_pending`. -/
def TaskState.is_pending : TaskState → Bool
  | .pending => true
  | _ => false

/-- Terminal states as defined by the specification:
Done, Failure, Timeout and Cancel. -/
def TaskState.isTerminal : TaskState → Bool
  | .done => true
  | .failure => true
  | .timeout => true
  | .cancel => true
  | _ => false

/-- A task, from `model.rs`.  The oneshot result channel endpoints `ret`
(`Option<Sender<TaskResult>>`) and `recv` (`Option<Receiver<TaskResult>>`)
are modelled by `Option Unit`: what matters to the dispatcher logic is only
whether each endpoint is still present. -/
structure Task where
  id : Nat
  handler_id : String
  content : Option TaskContent
  qos : QualityOfService
  state : TaskState
  ret : Option Unit
  recv : Option Unit
deriving DecidableEq, Repr

/-- From `model.rs`: the hand-written `Clone` implementation for `Task`.
It copies every field except the channel endpoints, which are set to `None`
because a oneshot sender/receiver cannot be cloned. -/
def Task.clone (t : Task) : Task :=
  { id := t.id
    handler_id := t.handler_id
    content := t.content
    qos := t.qos
    state := t.state
    ret := none
    recv := none }

/-- From `model.rs`: `Task::new` creates a pending task with its content and
both channel endpoints present. -/
def Task.new (handler_id : String) (id : Nat) (content : TaskContent)
    (qos : QualityOfService) : Task :=
  { id := id
    handler_id := handler_id
    content := some content
    qos := qos
    state := .pending
    ret := some ()
    recv := some () }

/-- The terminal message sent on a task's result channel, from `model.rs`. -/
structure TaskResult where
  id : Nat
  state : TaskState
deriving DecidableEq, Repr

/-- From `model.rs`: `impl From<Task> for TaskResult`. -/
def Task.toResult (t : Task) : TaskResult :=
  { id := t.id, state := t.state }

/-! ## Task queue (from `alphaflow-engine/queue/src/task_queue.rs`)

In the source, a `TaskList` is `{ id: TaskHandlerId, tasks: BinaryHeap<PendingTask> }`
and the `TaskQueue` holds the *same* `Arc<AtomicRefCell<TaskList>>` values both in
`index_tasks: HashMap<TaskHandlerId, …>` and in `queue: BinaryHeap<…>`.  The
shared cells are modelled by keeping each task list's contents in the map
(`index_tasks`) and recording in `queue` the backing vector of the outer
binary heap, in heap order (index 0 is the root), as the handler ids of the
lists it holds; a list's current contents are read through the map, exactly
as the shared `Arc` cell is read through either handle in Rust.

The *inner* `BinaryHeap<PendingTask>` holds immutable copies, so it is always
a valid max-heap and its pop/peek are modelled by max-extraction (`popMaxBy`).
The *outer* heap is different: `TaskQueue::push`'s `Occupied` branch mutates
a heap-resident `TaskList` in place through the shared cell and the heap is
never re-sifted, so its arrangement can become stale and `BinaryHeap::pop`
then returns the stale root.  To capture this, the outer heap's `push` and
`pop` are embedded as the actual `std::collections::BinaryHeap` algorithms
(append + `sift_up`; swap-in-last + `sift_down_to_bottom`), with every
comparison reading the lists' current contents through the index at the
moment the sift runs — and no sift at all when a resident list is mutated. -/

/-- The comparison on task lists from `task_queue.rs` (`impl Ord for TaskList`):
two lists compare by their heads (`peek`); an empty list sorts below any
non-empty one.  Here each side is represented by its `peek` result. -/
def taskListCmp : Option PendingTask → Option PendingTask → Ordering
  | none, none => .eq
  | none, some _ => .lt
  | some _, none => .gt
  | some lhs, some rhs => PendingTask.cmp lhs rhs

/-- The task queue state: the handler-id index and the binary heap
(represented by the handler ids of the task lists it holds). -/
structure TaskQueue where
  index_tasks : List (String × List PendingTask)
  queue : List String
deriving DecidableEq, Repr

/-- From `task_queue.rs`: `TaskQueue::new` / `Default`. -/
def TaskQueue.new : TaskQueue := { index_tasks := [], queue := [] }

/-- The `peek` of the task list registered for handler `h` (none when the
handler has no list). -/
def TaskQueue.peekOf (index : List (String × List PendingTask)) (h : String) :
    Option PendingTask :=
  match alookup index h with
  | none => none
  | some l => peekMaxBy PendingTask.ltb l

/-- Strict order on heap entries (handler ids) induced by `impl Ord for
TaskList`, reading each list's contents through the shared index. -/
def TaskQueue.listLtb (index : List (String × List PendingTask)) (h1 h2 : String) :
    Bool :=
  taskListCmp (TaskQueue.peekOf index h1) (TaskQueue.peekOf index h2) == Ordering.lt

/-- Read a position of the heap's backing vector (heap code only reads in
bounds; out-of-bounds reads return the default). -/
def lget {α : Type} [Inhabited α] (v : List α) (i : Nat) : α := v.getD i default

/-- Exchange two positions of the heap's backing vector (`Hole::move_to` /
the element placement of the sift loops have exactly this effect on the
arrangement). -/
def lswap {α : Type} [Inhabited α] (v : List α) (i j : Nat) : List α :=
  (v.set i (lget v j)).set j (lget v i)

/-- From `std::collections::BinaryHeap::sift_up` (called by `push` with
`start = 0`, and by `sift_down_to_bottom` from the bottom position): bubble
the element at `pos` toward `start` while it is strictly greater than its
parent.  The loop runs at most `pos` times, so the explicit bound `fuel`
(always called with `fuel = pos + 1`) never fires. -/
def siftUpFuel {α : Type} [Inhabited α] (lt : α → α → Bool) :
    Nat → Nat → Nat → List α → List α
  | 0, _, _, v => v
  | fuel + 1, start, pos, v =>
    if start < pos then
      let parent := (pos - 1) / 2
      if lt (lget v parent) (lget v pos) then
        siftUpFuel lt fuel start parent (lswap v parent pos)
      else v
    else v

/-- `sift_up(start, pos)` with its loop bound instantiated. -/
def siftUp {α : Type} [Inhabited α] (lt : α → α → Bool) (start pos : Nat)
    (v : List α) : List α :=
  siftUpFuel lt (pos + 1) start pos v

/-- The hole walk of `BinaryHeap::sift_down_to_bottom`: move the hole to the
bottom of the tree, always toward the greater child (ties pick the right
child, as in `child += (get(child) <= get(child + 1))`), taking the single
left child unconditionally when it is the last element.  Returns the final
hole position and the rearranged vector; the walk descends, so `fuel =
v.length` suffices. -/
def siftDownWalk {α : Type} [Inhabited α] (lt : α → α → Bool) :
    Nat → Nat → List α → Nat × List α
  | 0, pos, v => (pos, v)
  | fuel + 1, pos, v =>
    let en := v.length
    let child := 2 * pos + 1
    if child + 2 ≤ en then
      let child2 := if lt (lget v (child + 1)) (lget v child) then child else child + 1
      siftDownWalk lt fuel child2 (lswap v pos child2)
    else if child + 1 = en then
      (child, lswap v pos child)
    else
      (pos, v)

/-- From `std::collections::BinaryHeap::sift_down_to_bottom` (called by
`pop`): walk the hole to the bottom along the greater-child path, then sift
the element back up toward `start`. -/
def siftDownToBottom {α : Type} [Inhabited α] (lt : α → α → Bool) (start : Nat)
    (v : List α) : List α :=
  let w := siftDownWalk lt v.length start v
  siftUp lt start w.1 w.2

/-- From `std::collections::BinaryHeap::push`: append the item to the backing
vector and `sift_up(0, old_len)`. -/
def binaryHeapPush {α : Type} [Inhabited α] (lt : α → α → Bool) (v : List α)
    (x : α) : List α :=
  siftUp lt 0 v.length (v ++ [x])

/-- From `std::collections::BinaryHeap::pop`: remove the last element of the
backing vector; when elements remain, swap it with the root (which is
returned, whether or not it is still maximal for the current contents) and
`sift_down_to_bottom(0)`. -/
def binaryHeapPop {α : Type} [Inhabited α] (lt : α → α → Bool) :
    List α → Option (α × List α)
  | [] => none
  | [x] => some (x, [])
  | x :: y :: xs =>
    let rest := y :: xs
    let z := rest.getLastD default
    let middle := rest.dropLast
    some (x, siftDownToBottom lt 0 (z :: middle))

theorem getD_cons_set_perm {α : Type} [Inhabited α] :
    ∀ (xs : List α) (m : Nat) (y : α), m < xs.length →
      (xs.getD m default :: xs.set m y).Perm (y :: xs)
  | [], m, y => by simp
  | z :: t, 0, y => by
    intro _
    exact List.Perm.swap y z t
  | z :: t, m + 1, y => by
    intro hm
    simp only [List.getD_cons_succ, List.set_cons_succ]
    have ih := getD_cons_set_perm t m y (by simpa using hm)
    have step1 : (t.getD m default :: z :: t.set m y).Perm
        (z :: t.getD m default :: t.set m y) := List.Perm.swap z _ _
    have step2 : (z :: t.getD m default :: t.set m y).Perm (z :: y :: t) := ih.cons z
    exact step1.trans (step2.trans (List.Perm.swap y z t))

theorem lswap_perm {α : Type} [Inhabited α] :
    ∀ (v : List α) (i j : Nat), i < v.length → j < v.length →
      (lswap v i j).Perm v
  | [], i, j => by simp
  | x :: t, 0, 0 => by
    intro _ _
    simp [lswap, lget]
  | x :: t, 0, m + 1 => by
    intro _ hj
    simp only [lswap, lget, List.getD_cons_succ, List.getD_cons_zero,
      List.set_cons_zero, List.set_cons_succ]
    exact getD_cons_set_perm t m x (by simpa using hj)
  | x :: t, n + 1, 0 => by
    intro hi _
    simp only [lswap, lget, List.getD_cons_succ, List.getD_cons_zero,
      List.set_cons_zero, List.set_cons_succ]
    exact getD_cons_set_perm t n x (by simpa using hi)
  | x :: t, n + 1, m + 1 => by
    intro hi hj
    simp only [lswap, lget, List.getD_cons_succ, List.set_cons_succ]
    exact (lswap_perm t n m (by simpa using hi) (by simpa using hj)).cons x

theorem length_lswap {α : Type} [Inhabited α] (v : List α) (i j : Nat) :
    (lswap v i j).length = v.length := by
  simp [lswap, lget]

theorem siftUpFuel_perm {α : Type} [Inhabited α] (lt : α → α → Bool) :
    ∀ (fuel start pos : Nat) (v : List α), pos < v.length →
      (siftUpFuel lt fuel start pos v).Perm v
  | 0, _, _, v => by
    intro _
    exact List.Perm.refl v
  | fuel + 1, start, pos, v => by
    intro hpos
    simp only [siftUpFuel]
    by_cases hs : start < pos
    · rw [if_pos hs]
      by_cases hcmp : lt (lget v ((pos - 1) / 2)) (lget v pos) = true
      · rw [if_pos hcmp]
        have hpar : (pos - 1) / 2 < v.length := lt_of_le_of_lt (Nat.le_trans
          (Nat.div_le_self _ _) (Nat.sub_le _ _)) hpos
        have ih := siftUpFuel_perm lt fuel start ((pos - 1) / 2)
          (lswap v ((pos - 1) / 2) pos)
          (by rw [length_lswap]; exact hpar)
        exact ih.trans (lswap_perm v _ _ hpar hpos)
      · rw [if_neg hcmp]
    · rw [if_neg hs]

theorem siftUp_perm {α : Type} [Inhabited α] (lt : α → α → Bool) (start pos : Nat)
    (v : List α) (hpos : pos < v.length) : (siftUp lt start pos v).Perm v :=
  siftUpFuel_perm lt (pos + 1) start pos v hpos

theorem siftDownWalk_spec {α : Type} [Inhabited α] (lt : α → α → Bool) :
    ∀ (fuel pos : Nat) (v : List α), pos < v.length →
      (siftDownWalk lt fuel pos v).1 < v.length ∧
        (siftDownWalk lt fuel pos v).2.Perm v
  | 0, pos, v => by
    intro hpos
    exact ⟨hpos, List.Perm.refl v⟩
  | fuel + 1, pos, v => by
    intro hpos
    simp only [siftDownWalk]
    by_cases h1 : 2 * pos + 1 + 2 ≤ v.length
    · rw [if_pos h1]
      set child2 :=
        if lt (lget v (2 * pos + 1 + 1)) (lget v (2 * pos + 1)) then 2 * pos + 1
        else 2 * pos + 1 + 1 with hc2
      have hchild2 : child2 < v.length := by
        rw [hc2]
        by_cases hc : lt (lget v (2 * pos + 1 + 1)) (lget v (2 * pos + 1)) = true <;>
          simp [hc] <;> omega
      have ih := siftDownWalk_spec lt fuel child2 (lswap v pos child2)
        (by rw [length_lswap]; exact hchild2)
      rw [length_lswap] at ih
      exact ⟨ih.1, ih.2.trans (lswap_perm v pos child2 hpos hchild2)⟩
    · rw [if_neg h1]
      by_cases h2 : 2 * pos + 1 + 1 = v.length
      · rw [if_pos h2]
        have hchild : 2 * pos + 1 < v.length := by omega
        exact ⟨hchild, lswap_perm v pos _ hpos hchild⟩
      · rw [if_neg h2]
        exact ⟨hpos, List.Perm.refl v⟩

theorem siftDownToBottom_perm {α : Type} [Inhabited α] (lt : α → α → Bool)
    (start : Nat) (v : List α) (hpos : start < v.length) :
    (siftDownToBottom lt start v).Perm v := by
  have hw := siftDownWalk_spec lt v.length start v hpos
  have hlen : (siftDownWalk lt v.length start v).2.length = v.length :=
    hw.2.length_eq
  exact (siftUp_perm lt start _ _ (by rw [hlen]; exact hw.1)).trans hw.2

theorem binaryHeapPush_perm {α : Type} [Inhabited α] (lt : α → α → Bool)
    (v : List α) (x : α) : (binaryHeapPush lt v x).Perm (x :: v) := by
  have h1 : (siftUp lt 0 v.length (v ++ [x])).Perm (v ++ [x]) :=
    siftUp_perm lt 0 v.length (v ++ [x]) (by simp)
  exact h1.trans (List.perm_append_singleton x v)

theorem getLastD_cons_dropLast_perm {α : Type} :
    ∀ (l : List α) (d : α), l ≠ [] → (l.getLastD d :: l.dropLast).Perm l
  | [], _, h => absurd rfl h
  | [x], _, _ => by simp
  | x :: y :: t, d, _ => by
    have ih := getLastD_cons_dropLast_perm (y :: t) x (by simp)
    simp only [List.getLastD_cons] at ih ⊢
    simp only [List.dropLast_cons₂]
    have step1 : (t.getLastD y :: x :: (y :: t).dropLast).Perm
        (x :: t.getLastD y :: (y :: t).dropLast) := List.Perm.swap x _ _
    exact step1.trans (ih.cons x)

theorem binaryHeapPop_spec {α : Type} [Inhabited α] (lt : α → α → Bool)
    (v : List α) (m : α) (rest : List α)
    (h : binaryHeapPop lt v = some (m, rest)) :
    ∃ t, v = m :: t ∧ rest.Perm t := by
  match v with
  | [] => exact absurd h (by simp [binaryHeapPop])
  | [x] =>
    simp only [binaryHeapPop, Option.some.injEq, Prod.mk.injEq] at h
    exact ⟨[], by rw [h.1], by rw [← h.2]⟩
  | x :: y :: xs =>
    simp only [binaryHeapPop, Option.some.injEq, Prod.mk.injEq] at h
    refine ⟨y :: xs, by rw [h.1], ?_⟩
    rw [← h.2]
    have hne : (y :: xs) ≠ [] := by simp
    have hperm1 : ((y :: xs).getLastD default :: (y :: xs).dropLast).Perm (y :: xs) :=
      getLastD_cons_dropLast_perm _ _ hne
    exact (siftDownToBottom_perm lt 0 _ (by simp)).trans hperm1

/-- From `task_queue.rs`: `TaskQueue::push`.  A task with no content is
dropped with a warning; otherwise its `PendingTask` is appended to the task
list of its handler.  In the `Occupied` branch the heap-resident list is
mutated in place through the shared cell and the heap is *not* re-sifted; in
the `Vacant` branch the new list is inserted into the map and then heap-pushed
(the push's sift comparisons read the updated map).  (The `debug_assert!`
checking that ids arrive in increasing order is a debug-only statement and
has no run-time effect.) -/
def TaskQueue.push (q : TaskQueue) (task : Task) : TaskQueue :=
  if task.content.isNone then q
  else
    let pending_task : PendingTask := { qos := task.qos, id := task.id }
    match alookup q.index_tasks task.handler_id with
    | some list =>
      { q with index_tasks := aset q.index_tasks task.handler_id (pending_task :: list) }
    | none =>
      let index2 := aset q.index_tasks task.handler_id [pending_task]
      { index_tasks := index2
        queue := binaryHeapPush (TaskQueue.listLtb index2) q.queue task.handler_id }

/-- From `task_queue.rs`: `TaskQueue::clear`. -/
def TaskQueue.clear (_ : TaskQueue) : TaskQueue := { index_tasks := [], queue := [] }

/-- From `task_queue.rs`: `TaskQueue::mut_head`.  Pops the top task list from
the heap (`BinaryHeap::pop`, whose sift comparisons read the lists' contents
as they are before `f` runs), applies `f` to it with exclusive access,
re-inserts it into the heap when it is still non-empty (the re-push's sift
comparisons read the contents left by `f`) and removes it from the index
otherwise, and returns the result of `f`.  `f` returns the new contents of
the list paired with its result value. -/
def TaskQueue.mutHead {α : Type} (q : TaskQueue)
    (f : List PendingTask → List PendingTask × Option α) : Option α × TaskQueue :=
  match binaryHeapPop (TaskQueue.listLtb q.index_tasks) q.queue with
  | none => (none, q)
  | some (head, restQueue) =>
    let l := (alookup q.index_tasks head).getD []
    let fres := f l
    if fres.1.isEmpty then
      (fres.2, { index_tasks := aerase q.index_tasks head, queue := restQueue })
    else
      let index2 := aset q.index_tasks head fres.1
      (fres.2,
        { index_tasks := index2
          queue := binaryHeapPush (TaskQueue.listLtb index2) restQueue head })

/-- The `|list| list.pop()` closure that `TaskDispatcher::process_next_task`
passes to `mut_head`: pop the greatest `PendingTask` from the list. -/
def heapPop (l : List PendingTask) : List PendingTask × Option PendingTask :=
  match popMaxBy PendingTask.ltb l with
  | none => (l, none)
  | some (m, rest) => (rest, some m)

/-! ## Task store (from `alphaflow-engine/store/src/task_store.rs`) -/

/-- The task store: a map from task id to task plus the `AtomicU32` id
counter. -/
structure TaskStore where
  tasks : List (Nat × Task)
  task_id_counter : Nat
deriving DecidableEq, Repr

/-- From `task_store.rs`: `TaskStore::new` — the id counter starts at 1. -/
def TaskStore.new : TaskStore := { tasks := [], task_id_counter := 1 }

/-- From `task_store.rs`: `TaskStore::insert_task`. -/
def TaskStore.insert_task (s : TaskStore) (task : Task) : TaskStore :=
  { s with tasks := aset s.tasks task.id task }

/-- From `task_store.rs`: `TaskStore::remove_task`. -/
def TaskStore.remove_task (s : TaskStore) (task_id : Nat) : Option Task × TaskStore :=
  (alookup s.tasks task_id, { s with tasks := aerase s.tasks task_id })

/-- From `task_store.rs`: `TaskStore::read_task`. -/
def TaskStore.read_task (s : TaskStore) (task_id : Nat) : Option Task :=
  alookup s.tasks task_id

/-- From `task_store.rs`: `TaskStore::next_task_id` — `fetch_add(1, SeqCst)`
on an `AtomicU32` returns the previous value and wraps around on overflow;
the wrap-around is the explicit reduction modulo `2 ^ 32`. -/
def TaskStore.next_task_id (s : TaskStore) : Nat × TaskStore :=
  (s.task_id_counter, { s with task_id_counter := (s.task_id_counter + 1) % 4294967296 })

/-- From `task_store.rs`: `TaskStore::clear` — drain every task; each task
whose `ret` sender is still present is set to `Cancel` and its terminal
result is sent.  Returns the drained store together with the list of results
sent. -/
def TaskStore.clear (s : TaskStore) : TaskStore × List TaskResult :=
  ({ s with tasks := [] },
    s.tasks.filterMap fun p =>
      if p.2.ret.isSome then some { id := p.2.id, state := TaskState.cancel } else none)

/-! ## JMESPath-style mapping engine (from `alphaflow-jmes/src/interpreter.rs`
and `alphaflow-jmes/src/jmes_runtime.rs`)

The `Ast` constructor set is taken from the exhaustive `match` in
`interpreter.rs`; the `Variable` JSON representation and its helper methods
live in `variable.rs`, which is declared (`mod variable`) but not present
under `src/`, so those helpers are modelled from the specification (§4.7) and
marked as such. -/

/-- Modelled from the spec: comparison operators of the mapping AST,
op ∈ \x7b=, ≠, <, ≤, >, ≥\x7d (`ast.rs` is declared but not present under
`src/`). -/
inductive Comparator where
  | eq
  | ne
  | lt
  | lte
  | gt
  | gte
deriving DecidableEq, Repr

mutual
/-- The JSON value type of the mapping engine (`Variable` in `variable.rs`;
also used here to embed `serde_json::Value`).  Objects are association lists
(the source uses a `BTreeMap`, rebuilt in key order by `btreeInsert` where the
interpreter constructs objects); numbers are modelled at integer precision. -/
inductive Variable where
  | null
  | bool (b : Bool)
  | number (n : Int)
  | string (s : String)
  | array (items : List Variable)
  | object (entries : List (String × Variable))
  | expref (ast : Ast)

/-- The mapping AST.  Constructors and their payloads are taken from the
exhaustive `match` over `Ast` in `interpreter.rs` (the `ast.rs` declaring the
enum is not under `src/`); each node carries its source offset. -/
inductive Ast where
  | comparison (offset : Nat) (comparator : Comparator) (lhs rhs : Ast)
  | condition (offset : Nat) (predicate thenExpr : Ast)
  | identity (offset : Nat)
  | expref (offset : Nat) (ast : Ast)
  | flatten (offset : Nat) (node : Ast)
  | function (offset : Nat) (name : String) (args : List Ast)
  | field (offset : Nat) (name : String)
  | index (offset : Nat) (idx : Int)
  | literal (offset : Nat) (value : Variable)
  | multiList (offset : Nat) (elements : List Ast)
  | multiHash (offset : Nat) (elements : List (String × Ast))
  | not (offset : Nat) (node : Ast)
  | projection (offset : Nat) (lhs rhs : Ast)
  | objectValues (offset : Nat) (node : Ast)
  | and (offset : Nat) (lhs rhs : Ast)
  | or (offset : Nat) (lhs rhs : Ast)
  | slice (offset : Nat) (start stop : Option Int) (step : Int)
  | subexpr (offset : Nat) (lhs rhs : Ast)
end

mutual
/-- Modelled from the spec: structural equality of JSON values (the derived
`PartialEq` for `Variable` in `variable.rs`, not under `src/`).  Two
expression references are treated as unequal here; no claim exercises
comparisons between exprefs. -/
def veq : Variable → Variable → Bool
  | .null, .null => true
  | .bool a, .bool b => a == b
  | .number a, .number b => a == b
  | .string a, .string b => a == b
  | .array a, .array b => veqList a b
  | .object a, .object b => veqEntries a b
  | _, _ => false

/-- Element-wise equality of JSON arrays, part of `veq`. -/
def veqList : List Variable → List Variable → Bool
  | [], [] => true
  | a :: as2, b :: bs => veq a b && veqList as2 bs
  | _, _ => false

/-- Entry-wise equality of JSON objects, part of `veq`. -/
def veqEntries : List (String × Variable) → List (String × Variable) → Bool
  | [], [] => true
  | (ka, va) :: as2, (kb, vb) :: bs => ka == kb && veq va vb && veqEntries as2 bs
  | _, _ => false
end

/-- Modelled from the spec: `Variable::is_null` (`variable.rs` is not under
`src/`). -/
def Variable.is_null : Variable → Bool
  | .null => true
  | _ => false

/-- Modelled from the spec: `Variable::as_array` returns the elements when the
value is an array. -/
def Variable.as_array : Variable → Option (List Variable)
  | .array items => some items
  | _ => none

/-- Modelled from the spec: `Variable::as_string` / `Value::as_str` returns
the string when the value is a string. -/
def Variable.as_string : Variable → Option String
  | .string s => some s
  | _ => none

/-- Modelled from the spec: `Value::as_f64` returns the number when the value
is a number (numbers are embedded at integer precision). -/
def Variable.as_f64 : Variable → Option Int
  | .number n => some n
  | _ => none

/-- Modelled from the spec: truthiness (§4.7) — null, false, the empty
string, the empty array and the empty object are falsy.  A *number* is always
truthy, following the repository's own tests in `jmes_runtime.rs`
(`test_group_3`: the expression !Zero evaluates to false). -/
def Variable.is_truthy : Variable → Bool
  | .null => false
  | .bool b => b
  | .string s => !s.isEmpty
  | .array items => !items.isEmpty
  | .object entries => !entries.isEmpty
  | _ => true

/-- Modelled from the spec: field access on a non-object, or a missing field,
yields null (`Variable::get_field`). -/
def Variable.get_field (v : Variable) (name : String) : Variable :=
  match v with
  | .object entries => (alookup entries name).getD .null
  | _ => .null

/-- Modelled from the spec: index on a non-array or out of range yields null
(`Variable::get_index`). -/
def Variable.get_index (v : Variable) (i : Nat) : Variable :=
  match v with
  | .array items => items.getD i .null
  | _ => .null

/-- Modelled from the spec: negative index counts from the end
(`Variable::get_negative_index`; an index of 0 behaves like 1). -/
def Variable.get_negative_index (v : Variable) (i : Nat) : Variable :=
  match v with
  | .array items =>
    let adjusted := max i 1
    if items.length < adjusted then .null else items.getD (items.length - adjusted) .null
  | _ => .null

/-- Modelled from the spec: comparisons — equality and inequality compare
structurally for any pair; the four order comparators apply to numbers only
and return `none` (null) for incomparable pairs (`Variable::compare`). -/
def Variable.compareWith (v : Variable) (cmp : Comparator) (other : Variable) :
    Option Bool :=
  match cmp with
  | .eq => some (veq v other)
  | .ne => some (!veq v other)
  | _ =>
    match v, other with
    | .number a, .number b =>
      match cmp with
      | .lt => some (decide (a < b))
      | .lte => some (decide (a ≤ b))
      | .gt => some (decide (b < a))
      | .gte => some (decide (b ≤ a))
      | _ => none
    | _, _ => none

/-- Insertion into a key-sorted association list; models `BTreeMap::insert`
as used by the `MultiHash` branch of the interpreter. -/
def btreeInsert : List (String × Variable) → String → Variable → List (String × Variable)
  | [], k, v => [(k, v)]
  | (k1, v1) :: t, k, v =>
    if k = k1 then (k, v) :: t
    else if k < k1 then (k, v) :: (k1, v1) :: t
    else (k1, v1) :: btreeInsert t k v

/-- Modelled from the spec: the indices selected by a slice
`[start:stop:step]` over an array of length `n`, with Python-style defaults,
negative-index adjustment and clamping (`variable.rs` is not under `src/`).
Only called with `step ≠ 0`. -/
def sliceIndices (n : Nat) (start stop : Option Int) (step : Int) : List Nat :=
  if 0 < step then
    let adjust : Int → Int := fun i => if i < 0 then max (i + n) 0 else min i n
    let lo := adjust (start.getD 0)
    let hi := adjust (stop.getD n)
    (List.range n).filter fun (j : Nat) =>
      lo ≤ Int.ofNat j ∧ Int.ofNat j < hi ∧ (Int.ofNat j - lo) % step = 0
  else
    let adjust : Int → Int := fun i => if i < 0 then max (i + n) (-1) else min i ((n : Int) - 1)
    let lo := adjust (start.getD ((n : Int) - 1))
    let hi := adjust (stop.getD (-1))
    ((List.range n).filter fun (j : Nat) =>
      hi < Int.ofNat j ∧ Int.ofNat j ≤ lo ∧ (lo - Int.ofNat j) % (-step) = 0).reverse

/-- Modelled from the spec: `Variable::slice` — slicing applies to arrays and
returns `none` (so the interpreter yields null) for any other subject. -/
def Variable.slice (v : Variable) (start stop : Option Int) (step : Int) :
    Option (List Variable) :=
  match v with
  | .array items =>
    some ((sliceIndices items.length start stop step).map fun i => items.getD i .null)
  | _ => none

/-- Runtime errors of the mapping engine.  `unknownFunction` and
`invalidSlice` appear in `interpreter.rs`; `invalidArity` models the
type/arity errors produced by function-signature validation (`functions.rs`
is not under `src/`); `fuelExhausted` is an artifact of the fuel-bounded
embedding of the interpreter and is never returned when the fuel exceeds the
depth of the AST. -/
inductive RuntimeError where
  | unknownFunction (name : String)
  | invalidSlice
  | invalidArity
  | fuelExhausted
deriving DecidableEq, Repr

/-- The type of a function registered in the mapping runtime: it receives the
evaluated arguments and produces a value or a runtime error. -/
def JmesFn : Type := List Variable → Except RuntimeError Variable

/-- From `interpreter.rs`: the interpreter `interpret(data, node, ctx)`.
The runtime's function table (`ctx.runtime.get_function`) is the parameter
`rt`; error source positions (`ctx.offset`) are not modelled.  Recursion is
bounded by `fuel`; the Rust function is structurally recursive on the AST, so
every result below is taken at a fuel larger than the AST depth, where the
bound never fires. -/
def interpret (rt : String → Option JmesFn) :
    Nat → Variable → Ast → Except RuntimeError Variable
  | 0, _, _ => .error .fuelExhausted
  | fuel + 1, data, node =>
    match node with
    | .field _ name => .ok (data.get_field name)
    | .subexpr _ lhs rhs => do
      let left_result ← interpret rt fuel data lhs
      interpret rt fuel left_result rhs
    | .identity _ => .ok data
    | .literal _ value => .ok value
    | .index _ idx =>
      if 0 ≤ idx then .ok (data.get_index idx.toNat)
      else .ok (data.get_negative_index (-idx).toNat)
    | .or _ lhs rhs => do
      let left ← interpret rt fuel data lhs
      if left.is_truthy then .ok left else interpret rt fuel data rhs
    | .and _ lhs rhs => do
      let left ← interpret rt fuel data lhs
      if !left.is_truthy then .ok left else interpret rt fuel data rhs
    | .not _ node2 => do
      let result ← interpret rt fuel data node2
      .ok (.bool (!result.is_truthy))
    | .condition _ predicate thenExpr => do
      let cond_result ← interpret rt fuel data predicate
      if cond_result.is_truthy then interpret rt fuel data thenExpr else .ok .null
    | .comparison _ comparator lhs rhs => do
      let left ← interpret rt fuel data lhs
      let right ← interpret rt fuel data rhs
      match left.compareWith comparator right with
      | none => .ok .null
      | some result_bool => .ok (.bool result_bool)
    | .objectValues _ node2 => do
      let subject ← interpret rt fuel data node2
      match subject with
      | .object entries => .ok (.array (entries.map Prod.snd))
      | _ => .ok .null
    | .projection _ lhs rhs => do
      let left ← interpret rt fuel data lhs
      match left.as_array with
      | none => .ok .null
      | some left_arr => do
        let collected ← left_arr.foldlM
          (fun acc element => do
            let current ← interpret rt fuel element rhs
            if !current.is_null then pure (acc ++ [current]) else pure acc)
          []
        .ok (.array collected)
    | .flatten _ node2 => do
      let subject ← interpret rt fuel data node2
      match subject.as_array with
      | none => .ok .null
      | some a =>
        .ok (.array (a.foldl
          (fun collected element =>
            match element.as_array with
            | some subarray => collected ++ subarray
            | _ => collected ++ [element])
          []))
    | .multiList _ elements =>
      if data.is_null then .ok .null
      else do
        let collected ← elements.mapM (interpret rt fuel data)
        .ok (.array collected)
    | .multiHash _ elements =>
      if data.is_null then .ok .null
      else do
        let collected ← elements.foldlM
          (fun acc kvp => do
            let val ← interpret rt fuel data kvp.2
            pure (btreeInsert acc kvp.1 val))
          []
        .ok (.object collected)
    | .function _ name args => do
      let fn_args ← args.mapM (interpret rt fuel data)
      match rt name with
      | some f => f fn_args
      | none => .error (.unknownFunction name)
    | .expref _ ast => .ok (.expref ast)
    | .slice _ start stop step =>
      if step = 0 then .error .invalidSlice
      else
        match data.slice start stop step with
        | some array => .ok (.array array)
        | none => .ok .null

/-- Models `str::parse::<f64>` as used by the `gt` custom function,
restricted to integer literals (an optional sign followed by digits); claims
exercise it only on such strings. -/
def parseNumStr (s : String) : Option Int :=
  match s.data with
  | [] => none
  | c :: rest =>
    let signed := c = '-'
    let digits := if c = '-' ∨ c = '+' then rest else c :: rest
    if !digits.isEmpty ∧ digits.all Char.isDigit then
      let n : Nat := digits.foldl (fun acc d => acc * 10 + (d.toNat - 48)) 0
      some (if signed then -(n : Int) else (n : Int))
    else none

/-- Lexicographic comparison of character lists, used to model the ordering
on Rust `&str` (bytewise lexicographic; UTF-8 byte order coincides with code
point order). -/
def charListLt : List Char → List Char → Bool
  | [], [] => false
  | [], _ :: _ => true
  | _ :: _, [] => false
  | a :: as2, b :: bs =>
    if a.toNat < b.toNat then true
    else if b.toNat < a.toNat then false
    else charListLt as2 bs

/-- Models the Rust `&str` comparison `a < b` (lexicographic). -/
def strLtb (a b : String) : Bool := charListLt a.data b.data

/-- From `jmes_runtime.rs` (the `gt` closure): the numeric coercion of an
operand — `as_f64()` on the value, or else its string form parsed as a
number. -/
def gtOperandNum (v : Variable) : Option Int :=
  v.as_f64.orElse fun _ => v.as_string.bind parseNumStr

/-- From `jmes_runtime.rs`: the closure registered for the custom function
`gt(a, b)`.  Each operand is converted to a number (a number value, or a
string that parses as a number); when both convert the comparison is numeric,
otherwise when both operands are strings the comparison is lexicographic,
otherwise the result is false.  The surrounding `CustomFunction` signature
validation (`functions.rs`, not under `src/`) admits exactly the calls with
at least two arguments. -/
def gtFn : JmesFn := fun args =>
  match args with
  | a :: b :: _ =>
    let left_num := gtOperandNum a
    let right_num := gtOperandNum b
    let result :=
      match left_num, right_num with
      | some ln, some rn => decide (rn < ln)
      | _, _ =>
        match a.as_string, b.as_string with
        | some ls, some rs => strLtb rs ls
        | _, _ => false
    .ok (.bool result)
  | _ => .error .invalidArity

/-- The function table used by the claims: the `gt` entry of the engine's
`CUSTOM_RUNTIME` (from `jmes_runtime.rs`).  The interpreter is parametric in
the table, and the claims below only exercise `gt`. -/
def gtRuntime : String → Option JmesFn := fun name =>
  if name = "gt" then some gtFn else none

/-! ## Task dispatcher (from `alphaflow-engine/queue/src/task_dispatcher.rs`) -/

/-- From `alphaflow-nodes/src/node_type.rs`: the execution context handed to a
node type. -/
structure NodeExecutionContext where
  parameters : Variable
  input_data : Variable
  globals : Variable
  env : Variable
  pin_data : Option Variable

/-- The three outcomes of `tokio::time::timeout(self.timeout, node.execute(&ctx))`
in `process_next_task`: the node succeeded (`Ok(Ok(_))`), the node returned an
error (`Ok(Err(e))`), or the timeout elapsed (`Err(_)`).  Node execution and
the timeout race are modelled by an oracle with this result type. -/
inductive ExecOutcome where
  | success
  | failure
  | timedOut
deriving DecidableEq, Repr

/-- The dispatcher state, from `task_dispatcher.rs`.  The handler map
(`HashMap<NodeTypeId, Arc<dyn NodeType>>`) is modelled by the list of
registered node-type names; the behaviour of `node.execute` under the
configured timeout is the oracle passed to `process_next_task`.  The watch
notifier carries no state that the claims depend on. -/
structure TaskDispatcher where
  queue : TaskQueue
  store : TaskStore
  handlers : List String
deriving DecidableEq, Repr

/-- From `task_dispatcher.rs`: `TaskDispatcher::new`. -/
def TaskDispatcher.new : TaskDispatcher :=
  { queue := TaskQueue.new, store := TaskStore.new, handlers := [] }

/-- From `task_dispatcher.rs`: `register_node` inserts the node under its
name. -/
def TaskDispatcher.register_node (d : TaskDispatcher) (name : String) : TaskDispatcher :=
  { d with handlers := name :: d.handlers }

/-- From `task_dispatcher.rs`: `build_context` converts the task content into
a `NodeExecutionContext`. -/
def buildContext : TaskContent → NodeExecutionContext
  | .text s =>
    { parameters := .object [("text", .string s)]
      input_data := .null
      globals := .null
      env := .null
      pin_data := none }
  | .blob bytes =>
    { parameters := .object [("blob_size", .number bytes.length)]
      input_data := .null
      globals := .null
      env := .null
      pin_data := none }

/-- From `task_dispatcher.rs`: `add_task`.  A task whose state is already
`Done` is rejected with a warning; otherwise the task is pushed to the queue,
inserted into the store, and the notifier is signalled.  The returned boolean
records whether `notify` was called. -/
def TaskDispatcher.add_task (d : TaskDispatcher) (task : Task) : TaskDispatcher × Bool :=
  if task.state.is_done then (d, false)
  else
    ({ d with queue := d.queue.push task, store := d.store.insert_task task }, true)

/-- From `task_dispatcher.rs`: `cancel_task` flips the state of a stored task
to `Cancel` in place. -/
def TaskDispatcher.cancel_task (d : TaskDispatcher) (task_id : Nat) : TaskDispatcher :=
  match alookup d.store.tasks task_id with
  | none => d
  | some t =>
    { d with store := { d.store with
        tasks := aset d.store.tasks task_id { t with state := .cancel } } }

/-- The result of one `process_next_task` call: the new dispatcher state, the
list of `TaskResult` messages sent on oneshot `ret` channels during the call,
and the `Option<()>` return value of the function. -/
structure ProcessResult where
  dispatcher : TaskDispatcher
  sent : List TaskResult
  retval : Option Unit
deriving DecidableEq, Repr

/-- From `task_dispatcher.rs`: `process_next_task`.  Pops the most urgent
pending task via `mut_head(|list| list.pop())`, removes the corresponding
task from the store, takes its `ret` channel, and then: short-circuits a
cancelled task to its terminal result; drops a task without content; cancels
a task whose handler is unknown; otherwise runs the node under the timeout
(outcome given by the oracle `exec`) and reports `Done`/`Failure`/`Timeout`.
Every early `?`-return is modelled by the corresponding branch. -/
def TaskDispatcher.process_next_task (exec : String → NodeExecutionContext → ExecOutcome)
    (d : TaskDispatcher) : ProcessResult :=
  match d.queue.mutHead heapPop with
  | (none, q2) => { dispatcher := { d with queue := q2 }, sent := [], retval := none }
  | (some pending_task, q2) =>
    let rm := d.store.remove_task pending_task.id
    let d2 := { d with queue := q2, store := rm.2 }
    match rm.1 with
    | none => { dispatcher := d2, sent := [], retval := none }
    | some task0 =>
      match task0.ret with
      | none => { dispatcher := d2, sent := [], retval := none }
      | some _ =>
        let task1 := { task0 with ret := none }
        if task1.state.is_cancel then
          { dispatcher := d2, sent := [task1.toResult], retval := none }
        else
          match task1.content with
          | none => { dispatcher := d2, sent := [], retval := none }
          | some content =>
            let task2 := { task1 with content := none }
            if d2.handlers.contains task2.handler_id then
              let task3 := { task2 with state := .processing }
              let ctx := buildContext content
              let task4 :=
                match exec task3.handler_id ctx with
                | .success => { task3 with state := .done }
                | .failure => { task3 with state := .failure }
                | .timedOut => { task3 with state := .timeout }
              { dispatcher := d2, sent := [task4.toResult], retval := some () }
            else
              let task3 := { task2 with state := .cancel }
              { dispatcher := d2, sent := [task3.toResult], retval := some () }

/-! ## Workflow executor (from `alphaflow-workflow/src/workflow.rs`) -/

/-- From `workflow.rs`: a node instance of a workflow. -/
structure WorkflowNode where
  id : String
  node_type_name : String
  parameters : Variable
  disabled : Bool

/-- From `workflow.rs`: the workflow graph. -/
structure Workflow where
  nodes : List (String × WorkflowNode)
  connections_by_source : List (String × List String)
  connections_by_destination : List (String × List String)

/-- From `workflow.rs`: `get_children`. -/
def Workflow.get_children (wf : Workflow) (node_id : String) : List String :=
  (alookup wf.connections_by_source node_id).getD []

/-- From `workflow.rs`: `get_parents`. -/
def Workflow.get_parents (wf : Workflow) (node_id : String) : List String :=
  (alookup wf.connections_by_destination node_id).getD []

/-- From `alphaflow-nodes/src/node_type.rs`: node errors. -/
inductive NodeError where
  | invalidConfig (msg : String)
  | executionFailed (msg : String)
deriving DecidableEq, Repr

/-- The execution context that `Workflow::run` constructs for a node
(`NodeExecutionContext { parameters, input_data }` in `workflow.rs`). -/
structure WfExecContext where
  parameters : Variable
  input_data : Variable

/-- The node registry as seen by `Workflow::run`: `registry.get(name)`
composed with the node's `execute`, whose output is the `data` field of
`NodeOutput`. -/
def WfRegistry : Type := String → Option (WfExecContext → Except NodeError Variable)

/-- From `workflow.rs` (run, step 3): the upstream outputs collected for a
node — the outputs recorded so far for its parents, in parent order. -/
def mergedOutputs (results : List (String × Variable)) (parent_ids : List String) :
    List Variable :=
  parent_ids.filterMap fun pid => alookup results pid

/-- From `workflow.rs` (run, step 3): the `input_data` built from the
collected upstream outputs — the single output verbatim when there is
exactly one, the empty object when there are none, and the array of outputs
otherwise. -/
def mergedInputData (results : List (String × Variable)) (parent_ids : List String) :
    Variable :=
  let merged_input := mergedOutputs results parent_ids
  if merged_input.length = 1 then merged_input.headD .null
  else if merged_input.isEmpty then .object []
  else .array merged_input

/-- From `workflow.rs` (run, step 1): the seed of the traversal — every
non-disabled node with no parents, in the iteration order of `nodes`
(a `HashMap` in the source, whose iteration order is unspecified; the model
uses the list order). -/
def startNodes (wf : Workflow) : List String :=
  wf.nodes.filterMap fun p =>
    if p.2.disabled then none
    else if (wf.get_parents p.1).isEmpty then some p.1 else none

/-- The state of the BFS loop in `Workflow::run`: the frontier queue, the
recorded results, and (for the analysis) the list of node ids executed so
far. -/
structure RunState where
  queue : List String
  results : List (String × Variable)
  execLog : List String

/-- Result of one iteration of the BFS loop in `Workflow::run`. -/
inductive StepResult where
  | finished (results : List (String × Variable))
  | failed (e : NodeError)
  | next (s : RunState)

/-- From `workflow.rs`: one iteration of the `while let Some(current_id) =
queue.pop_front()` loop of `Workflow::run` (an empty queue finishes the run
with the recorded results).  A missing or disabled node is skipped; a missing
node-type registration fails the run with `InvalidConfig`; otherwise the
node executes on the merged upstream input and its children are enqueued
unconditionally. -/
def runStep (wf : Workflow) (registry : WfRegistry) (s : RunState) : StepResult :=
  match s.queue with
  | [] => .finished s.results
  | current_id :: rest =>
    match alookup wf.nodes current_id with
    | some node =>
      if node.disabled then .next { s with queue := rest }
      else
        match registry node.node_type_name with
        | none =>
          .failed (.invalidConfig ("NodeType '" ++ node.node_type_name ++
            "' not registered for node '" ++ current_id ++ "'"))
        | some node_impl =>
          let input_data := mergedInputData s.results (wf.get_parents current_id)
          let ctx : WfExecContext := { parameters := node.parameters, input_data := input_data }
          match node_impl ctx with
          | .error err => .failed err
          | .ok output =>
            .next
              { queue := rest ++ wf.get_children current_id
                results := aset s.results current_id output
                execLog := s.execLog ++ [current_id] }
    | none => .next { s with queue := rest }

/-- The initial loop state of `Workflow::run`. -/
def initRunState (wf : Workflow) : RunState :=
  { queue := startNodes wf, results := [], execLog := [] }

/-- Observable status of the BFS loop after a bounded number of iterations:
finished with results, failed with an error, or still running. -/
inductive RunOutcome where
  | finished (results : List (String × Variable))
  | failed (e : NodeError)
  | running (s : RunState)

/-- Run the BFS loop of `Workflow::run` for at most `fuel` iterations. -/
def runFor (wf : Workflow) (registry : WfRegistry) : Nat → RunState → RunOutcome
  | 0, s => .running s
  | fuel + 1, s =>
    match runStep wf registry s with
    | .finished r => .finished r
    | .failed e => .failed e
    | .next s2 => runFor wf registry fuel s2

/-- How often node `x` has been executed in the state reached after a bounded
run (zero when the run has already finished or failed). -/
def runningExecCount (o : RunOutcome) (x : String) : Nat :=
  match o with
  | .running s => s.execLog.count x
  | _ => 0

/-- Whether a bounded run is still running. -/
def RunOutcome.isRunning : RunOutcome → Bool
  | .running _ => true
  | _ => false

/-! ## Claim C10 — `Task::clone` -/

/-- C10: for every task `t`, `t.clone()` preserves the `id`, `handler_id`,
`content`, `qos` and `state` fields and always has `ret = None` and
`recv = None`, so cloning never duplicates the one-shot result channel. -/
theorem task_clone_preserves_fields_and_drops_channels (t : Task) :
    (Task.clone t).id = t.id ∧ (Task.clone t).handler_id = t.handler_id ∧
    (Task.clone t).content = t.content ∧ (Task.clone t).qos = t.qos ∧
    (Task.clone t).state = t.state ∧
    (Task.clone t).ret = none ∧ (Task.clone t).recv = none :=
  ⟨rfl, rfl, rfl, rfl, rfl, rfl, rfl⟩

/-! ## Claim C9 — `next_task_id` -/

/-- The store after `k` calls of `next_task_id()`, starting from
`TaskStore::new`. -/
def storeAfterCalls : Nat → TaskStore
  | 0 => TaskStore.new
  | k + 1 => ((storeAfterCalls k).next_task_id).2

/-- The value returned by the `k`-th call (0-based) of `next_task_id()` on a
fresh store. -/
def taskIdAt (k : Nat) : Nat := ((storeAfterCalls k).next_task_id).1

theorem storeAfterCalls_counter (k : Nat) :
    (storeAfterCalls k).task_id_counter = (1 + k) % 4294967296 := by
  induction k with
  | zero => rfl
  | succ k ih =>
    simp only [storeAfterCalls, TaskStore.next_task_id, ih]
    omega

theorem taskIdAt_closed (k : Nat) : taskIdAt k = (1 + k) % 4294967296 := by
  simp [taskIdAt, TaskStore.next_task_id, storeAfterCalls_counter]

/-- C9 counterexample: `next_task_id` is an `AtomicU32` `fetch_add`, which
wraps around; the call with index `2^32 - 1` returns 0, which is not greater
than the 1 returned by the first call, so the returned values are not
strictly increasing over the whole lifetime of a store. -/
theorem next_task_id_not_strictly_increasing :
    taskIdAt 0 = 1 ∧ taskIdAt 4294967295 = 0 ∧
      (0 : Nat) < 4294967295 ∧ ¬ taskIdAt 0 < taskIdAt 4294967295 := by
  have h0 : taskIdAt 0 = 1 := rfl
  have h1 : taskIdAt 4294967295 = 0 := by
    rw [taskIdAt_closed]
  refine ⟨h0, h1, by norm_num, ?_⟩
  rw [h0, h1]
  omega

/-- C9 amended: `next_task_id()` starts at 1 (the first call returns 1) and
returns strictly increasing values as long as fewer than `2^32 - 1` calls
have been made (before the `u32` counter wraps around). -/
theorem next_task_id_monotone_before_wrap :
    taskIdAt 0 = 1 ∧
      ∀ j k : Nat, j < k → k ≤ 4294967294 → taskIdAt j < taskIdAt k := by
  refine ⟨rfl, fun j k hjk hk => ?_⟩
  rw [taskIdAt_closed, taskIdAt_closed]
  omega

/-- C9 witness: the amended monotonicity theorem applied at the first two
calls. -/
theorem next_task_id_monotone_witness : taskIdAt 0 < taskIdAt 1 :=
  next_task_id_monotone_before_wrap.2 0 1 (by norm_num) (by norm_num)

/-! ## Claim C6 — fan-in input assembly in `Workflow::run` -/

/-- C6: for a node executed with `k` ancestor outputs recorded so far, the
`input_data` handed to the node equals the empty object when `k = 0`, the
single output verbatim when `k = 1`, and the JSON array of the outputs in
order when `k ≥ 2`. -/
theorem merged_input_cases (results : List (String × Variable))
    (parent_ids : List String) :
    (mergedOutputs results parent_ids = [] →
      mergedInputData results parent_ids = Variable.object []) ∧
    (∀ o, mergedOutputs results parent_ids = [o] →
      mergedInputData results parent_ids = o) ∧
    (2 ≤ (mergedOutputs results parent_ids).length →
      mergedInputData results parent_ids =
        Variable.array (mergedOutputs results parent_ids)) := by
  refine ⟨fun h => ?_, fun o ho => ?_, fun h2 => ?_⟩
  · simp [mergedInputData, h]
  · simp [mergedInputData, ho]
  · have h1 : (mergedOutputs results parent_ids).length ≠ 1 := by omega
    have h3 : (mergedOutputs results parent_ids).isEmpty = false := by
      cases hm : mergedOutputs results parent_ids with
      | nil =>
        rw [hm] at h2
        simp at h2
      | cons a t => simp
    simp [mergedInputData, h1, h3]

/-- C6 witness: the fan-in cases evaluated at two recorded ancestor
outputs. -/
theorem merged_input_cases_witness :
    mergedInputData [("a", Variable.number 1), ("b", Variable.number 2)] ["a", "b"] =
      Variable.array [Variable.number 1, Variable.number 2] := by
  have h :=
    (merged_input_cases [("a", Variable.number 1), ("b", Variable.number 2)]
      ["a", "b"]).2.2 (by decide)
  rw [h]
  rfl

/-! ## Claim C7 — slice evaluation -/

/-- C7: evaluating a `Slice` AST node with `step = 0` returns the runtime
error `InvalidSlice`; for `step ≠ 0` that error branch is unreachable and
evaluation yields the sliced array, or null when the subject cannot be
sliced. -/
theorem slice_step_zero_invalid (rt : String → Option JmesFn) (fuel : Nat)
    (data : Variable) (off : Nat) (start stop : Option Int) (step : Int) :
    interpret rt (fuel + 1) data (Ast.slice off start stop 0) =
      Except.error RuntimeError.invalidSlice ∧
    (step ≠ 0 →
      interpret rt (fuel + 1) data (Ast.slice off start stop step) ≠
        Except.error RuntimeError.invalidSlice ∧
      ((∃ items, interpret rt (fuel + 1) data (Ast.slice off start stop step) =
          Except.ok (Variable.array items)) ∨
        interpret rt (fuel + 1) data (Ast.slice off start stop step) =
          Except.ok Variable.null)) := by
  constructor
  · rfl
  · intro hstep
    simp only [interpret, if_neg hstep]
    cases hs : data.slice start stop step with
    | none => simp
    | some items => simp

/-- C7 witness: slicing a three-element array with step 1 succeeds and does
not produce `InvalidSlice`. -/
theorem slice_step_zero_invalid_witness :
    interpret gtRuntime 1 (Variable.array [Variable.number 1, Variable.number 2])
        (Ast.slice 0 none none 1) ≠
      Except.error RuntimeError.invalidSlice ∧
    ((∃ items, interpret gtRuntime 1
          (Variable.array [Variable.number 1, Variable.number 2])
          (Ast.slice 0 none none 1) = Except.ok (Variable.array items)) ∨
      interpret gtRuntime 1 (Variable.array [Variable.number 1, Variable.number 2])
          (Ast.slice 0 none none 1) = Except.ok Variable.null) :=
  (slice_step_zero_invalid gtRuntime 0
    (Variable.array [Variable.number 1, Variable.number 2]) 0 none none 1).2
    (by norm_num)

/-! ## Claim C8 — the custom function `gt` -/

/-- C8: `gt(a, b)` compares numerically whenever both operands coerce to
numbers (numbers, or strings parseable as numbers); otherwise, when both
operands are strings, it compares them lexicographically; otherwise it
returns false.  In particular `gt(@.i, '5')` against `{"i": 10}` evaluates
to true. -/
theorem gt_function_cases :
    (∀ a b ln rn, gtOperandNum a = some ln → gtOperandNum b = some rn →
      gtFn [a, b] = Except.ok (Variable.bool (decide (rn < ln)))) ∧
    (∀ a b ls rs, (gtOperandNum a = none ∨ gtOperandNum b = none) →
      a.as_string = some ls → b.as_string = some rs →
      gtFn [a, b] = Except.ok (Variable.bool (strLtb rs ls))) ∧
    (∀ a b, (gtOperandNum a = none ∨ gtOperandNum b = none) →
      (a.as_string = none ∨ b.as_string = none) →
      gtFn [a, b] = Except.ok (Variable.bool false)) ∧
    interpret gtRuntime 10 (Variable.object [("i", Variable.number 10)])
        (Ast.function 7 "gt"
          [Ast.subexpr 3 (Ast.identity 0) (Ast.field 2 "i"),
            Ast.literal 6 (Variable.string "5")]) =
      Except.ok (Variable.bool true) := by
  refine ⟨fun a b ln rn hln hrn => ?_, fun a b ls rs hnum hls hrs => ?_,
    fun a b hnum hstr => ?_, rfl⟩
  · simp [gtFn, hln, hrn]
  · rcases hnum with h | h
    · simp [gtFn, h, hls, hrs]
    · cases hl : gtOperandNum a <;> simp [gtFn, hl, h, hls, hrs]
  · rcases hnum with h | h
    · rcases hstr with h2 | h2
      · simp [gtFn, h, h2]
      · cases ha : a.as_string <;> simp [gtFn, h, h2, ha]
    · cases hl : gtOperandNum a
      · rcases hstr with h2 | h2
        · simp [gtFn, hl, h2]
        · cases ha : a.as_string <;> simp [gtFn, hl, h2, ha]
      · rcases hstr with h2 | h2
        · simp [gtFn, hl, h, h2]
        · cases ha : a.as_string <;> simp [gtFn, hl, h, h2, ha]

/-- C8 witness: the three `gt` coercion cases evaluated at concrete
operands. -/
theorem gt_function_cases_witness :
    gtFn [Variable.number 10, Variable.string "5"] =
      Except.ok (Variable.bool true) ∧
    gtFn [Variable.string "b", Variable.string "a"] =
      Except.ok (Variable.bool true) ∧
    gtFn [Variable.bool true, Variable.number 1] =
      Except.ok (Variable.bool false) := by
  refine ⟨?_, ?_, ?_⟩
  · have h := gt_function_cases.1 (Variable.number 10) (Variable.string "5") 10 5
      (by rfl) (by rfl)
    rw [h]
    norm_num
  · have h := gt_function_cases.2.1 (Variable.string "b") (Variable.string "a") "b" "a"
      (Or.inl (by rfl)) rfl rfl
    rw [h]
    rfl
  · exact gt_function_cases.2.2.1 (Variable.bool true) (Variable.number 1)
      (Or.inl rfl) (Or.inl rfl)

/-! ## Claim C4 — `add_task` rejection policy -/

/-- A task whose state is already `Cancel` (a terminal state), used to refute
the claim that `add_task` rejects every terminal task. -/
def cancelledTask : Task :=
  { id := 1
    handler_id := "H"
    content := some (TaskContent.text "x")
    qos := QualityOfService.background
    state := TaskState.cancel
    ret := some ()
    recv := some () }

/-- C4 counterexample: `add_task` only checks `is_done()`.  A task in the
terminal state `Cancel` is *not* rejected: the call changes the store (and
the queue) and still notifies, refuting the claim that every terminal task is
rejected with the queue and store left unchanged. -/
theorem add_task_accepts_cancelled_task :
    TaskState.isTerminal cancelledTask.state = true ∧
    (TaskDispatcher.add_task TaskDispatcher.new cancelledTask).2 = true ∧
    (TaskDispatcher.add_task TaskDispatcher.new cancelledTask).1.store.tasks =
      [(1, cancelledTask)] ∧
    (TaskDispatcher.add_task TaskDispatcher.new cancelledTask).1 ≠
      TaskDispatcher.new := by
  refine ⟨rfl, rfl, rfl, ?_⟩
  decide

/-- C4 amended: `add_task(task)` rejects (with a warning, leaving the
dispatcher unchanged and not notifying) exactly the tasks whose state is
`Done`; every other task — including tasks already in the terminal states
`Failure`, `Timeout` or `Cancel` — is pushed to the queue, inserted into the
store, and then the notifier is signalled. -/
theorem add_task_rejects_only_done (d : TaskDispatcher) (task : Task) :
    (task.state = TaskState.done → TaskDispatcher.add_task d task = (d, false)) ∧
    (task.state ≠ TaskState.done →
      TaskDispatcher.add_task d task =
        ({ d with queue := d.queue.push task, store := d.store.insert_task task },
          true)) := by
  constructor
  · intro h
    simp [TaskDispatcher.add_task, TaskState.is_done, h]
  · intro h
    cases hs : task.state <;> simp_all [TaskDispatcher.add_task, TaskState.is_done]

/-- C4 witness: the amended theorem applied to the concrete cancelled task
(accepted) and to a done task (rejected). -/
theorem add_task_rejects_only_done_witness :
    TaskDispatcher.add_task TaskDispatcher.new cancelledTask =
      ({ TaskDispatcher.new with
          queue := TaskQueue.new.push cancelledTask
          store := TaskStore.new.insert_task cancelledTask }, true) ∧
    TaskDispatcher.add_task TaskDispatcher.new { cancelledTask with state := .done } =
      (TaskDispatcher.new, false) :=
  ⟨(add_task_rejects_only_done TaskDispatcher.new cancelledTask).2 (by decide),
    (add_task_rejects_only_done TaskDispatcher.new
      { cancelledTask with state := .done }).1 rfl⟩

/-! ## Claim C2 — exactly-once terminal result in `process_next_task` -/

/-- C2: whenever `process_next_task` pops a pending task whose task is still
in the store with its content present and its `ret` channel not yet taken
(which is how `add_task` enqueues tasks), the call sends exactly one
`TaskResult {id, state}` on that task's `ret` channel, and the reported state
is terminal (`Done`, `Failure`, `Timeout` or `Cancel`). -/
theorem process_next_task_exactly_one_terminal
    (exec : String → NodeExecutionContext → ExecOutcome) (d : TaskDispatcher)
    (pt : PendingTask) (t : Task)
    (hpop : (d.queue.mutHead heapPop).1 = some pt)
    (hstore : alookup d.store.tasks pt.id = some t)
    (hret : t.ret.isSome = true)
    (hcontent : t.content.isSome = true) :
    ∃ s, (TaskDispatcher.process_next_task exec d).sent =
        [{ id := t.id, state := s }] ∧ s.isTerminal = true := by
  rcases hq : d.queue.mutHead heapPop with ⟨popres, q2⟩
  have hpop2 : popres = some pt := by
    rw [hq] at hpop
    exact hpop
  subst hpop2
  rcases hu : t.ret with _ | u
  · rw [hu] at hret
    exact Bool.noConfusion hret
  · rcases hc : t.content with _ | c
    · rw [hc] at hcontent
      exact Bool.noConfusion hcontent
    · cases u
      by_cases hcan : t.state.is_cancel = true
      · refine ⟨t.state, ?_, ?_⟩
        · simp [TaskDispatcher.process_next_task, hq, TaskStore.remove_task,
            hstore, hu, hcan, Task.toResult]
        · cases hs : t.state <;> simp_all [TaskState.is_cancel, TaskState.isTerminal]
      · by_cases hh : d.handlers.contains t.handler_id = true
        · have hmem : t.handler_id ∈ d.handlers := List.mem_of_elem_eq_true hh
          cases hexec : exec t.handler_id (buildContext c)
          · refine ⟨.done, ?_, rfl⟩
            simp [TaskDispatcher.process_next_task, hq, TaskStore.remove_task,
              hstore, hu, hcan, hc, hh, hmem, hexec, Task.toResult]
          · refine ⟨.failure, ?_, rfl⟩
            simp [TaskDispatcher.process_next_task, hq, TaskStore.remove_task,
              hstore, hu, hcan, hc, hh, hmem, hexec, Task.toResult]
          · refine ⟨.timeout, ?_, rfl⟩
            simp [TaskDispatcher.process_next_task, hq, TaskStore.remove_task,
              hstore, hu, hcan, hc, hh, hmem, hexec, Task.toResult]
        · have hnmem : t.handler_id ∉ d.handlers := by
            intro hm
            exact hh (List.elem_eq_true_of_mem hm)
          refine ⟨.cancel, ?_, rfl⟩
          simp [TaskDispatcher.process_next_task, hq, TaskStore.remove_task,
            hstore, hu, hcan, hc, hh, hnmem, Task.toResult]

/-- A dispatcher holding one freshly added task for the registered handler
`H`, used to instantiate the exactly-once theorem. -/
def oneTaskDispatcher : TaskDispatcher :=
  ((TaskDispatcher.new.register_node "H").add_task
    (Task.new "H" 7 (TaskContent.text "x") QualityOfService.background)).1

/-- C2 witness: the exactly-once theorem applied to a concrete dispatcher
with a single queued task. -/
theorem process_next_task_exactly_one_terminal_witness :
    ∃ s, (TaskDispatcher.process_next_task (fun _ _ => ExecOutcome.success)
        oneTaskDispatcher).sent = [{ id := 7, state := s }] ∧
      s.isTerminal = true :=
  process_next_task_exactly_one_terminal (fun _ _ => ExecOutcome.success)
    oneTaskDispatcher { qos := QualityOfService.background, id := 7 }
    (Task.new "H" 7 (TaskContent.text "x") QualityOfService.background)
    (by decide) (by decide) rfl rfl

/-! ## Claim C5 — queue integrity invariant -/

/-- The queue integrity invariant: the heap entries are pairwise distinct, the
index keys are pairwise distinct, every task list in the index is non-empty
and its handler is present in the heap, and every heap entry has a task list
in the index — i.e. the heap and the index always hold the same task lists,
and all of them are non-empty. -/
def QueueInv (q : TaskQueue) : Prop :=
  q.queue.Nodup ∧ (akeys q.index_tasks).Nodup ∧
  (∀ p ∈ q.index_tasks, p.2 ≠ [] ∧ p.1 ∈ q.queue) ∧
  (∀ h ∈ q.queue, (alookup q.index_tasks h).isSome = true)

instance (q : TaskQueue) : Decidable (QueueInv q) := by
  unfold QueueInv
  infer_instance

theorem queueInv_new : QueueInv TaskQueue.new := by
  refine ⟨List.nodup_nil, List.nodup_nil, ?_, ?_⟩ <;> simp [TaskQueue.new, akeys]

theorem queueInv_push (q : TaskQueue) (t : Task) (h : QueueInv q) :
    QueueInv (q.push t) := by
  obtain ⟨h1, h2, h3, h4⟩ := h
  unfold TaskQueue.push
  by_cases hc : t.content.isNone = true
  · simpa [hc] using ⟨h1, h2, h3, h4⟩
  · rw [if_neg hc]
    cases hl : alookup q.index_tasks t.handler_id with
    | some list =>
      dsimp only
      have hmem := alookup_eq_some_mem hl
      refine ⟨h1, ?_, ?_, ?_⟩
      · rw [akeys_aset_of_mem _ _ _ (by simp [hl])]
        exact h2
      · intro p hp
        rcases mem_aset_elim hp with hp2 | hp2
        · subst hp2
          exact ⟨by simp, (h3 _ hmem).2⟩
        · exact h3 _ hp2
      · intro h5 h5mem
        by_cases he : h5 = t.handler_id
        · subst he
          rw [alookup_aset_self]
          rfl
        · rw [alookup_aset_ne _ _ _ _ he]
          exact h4 _ h5mem
    | none =>
      dsimp only
      have hnotkey : t.handler_id ∉ akeys q.index_tasks :=
        not_mem_akeys_of_alookup_eq_none hl
      have hnotqueue : t.handler_id ∉ q.queue := by
        intro hm
        have h5 := h4 _ hm
        rw [hl] at h5
        exact Bool.noConfusion h5
      have hqp : (binaryHeapPush
          (TaskQueue.listLtb (aset q.index_tasks t.handler_id [{ qos := t.qos, id := t.id }]))
          q.queue t.handler_id).Perm (t.handler_id :: q.queue) :=
        binaryHeapPush_perm _ _ _
      refine ⟨hqp.nodup_iff.mpr (List.nodup_cons.mpr ⟨hnotqueue, h1⟩), ?_, ?_, ?_⟩
      · rw [akeys_aset_of_not_mem _ _ _ hl]
        simp [List.nodup_append, h2, hnotkey]
      · intro p hp
        rcases mem_aset_elim hp with hp2 | hp2
        · subst hp2
          exact ⟨by simp, hqp.symm.subset (List.mem_cons_self _ _)⟩
        · exact ⟨(h3 _ hp2).1,
            hqp.symm.subset (List.mem_cons_of_mem _ (h3 _ hp2).2)⟩
      · intro h5 h5mem
        rcases List.mem_cons.mp (hqp.subset h5mem) with he | he
        · subst he
          rw [alookup_aset_self]
          rfl
        · have hne : h5 ≠ t.handler_id := fun hcon => hnotqueue (hcon ▸ he)
          rw [alookup_aset_ne _ _ _ _ hne]
          exact h4 _ he

theorem queueInv_mutHead {α : Type} (q : TaskQueue)
    (f : List PendingTask → List PendingTask × Option α) (h : QueueInv q) :
    QueueInv (q.mutHead f).2 := by
  obtain ⟨h1, h2, h3, h4⟩ := h
  unfold TaskQueue.mutHead
  cases hsel : binaryHeapPop (TaskQueue.listLtb q.index_tasks) q.queue with
  | none => exact ⟨h1, h2, h3, h4⟩
  | some p =>
    obtain ⟨head, restQ⟩ := p
    dsimp only
    obtain ⟨t', hqeq, hrperm⟩ := binaryHeapPop_spec _ _ _ _ hsel
    have hperm : q.queue.Perm (head :: restQ) := by
      rw [hqeq]
      exact (hrperm.symm).cons head
    have hmemhead : head ∈ q.queue := by
      rw [hqeq]
      exact List.mem_cons_self _ _
    have hnodup2 : (head :: restQ).Nodup := hperm.nodup_iff.mp h1
    have hheadnotrest : head ∉ restQ := (List.nodup_cons.mp hnodup2).1
    have hrestnodup : restQ.Nodup := (List.nodup_cons.mp hnodup2).2
    by_cases hemp : ((f ((alookup q.index_tasks head).getD [])).1).isEmpty = true
    · rw [if_pos hemp]
      refine ⟨hrestnodup, h2.sublist (akeys_aerase_sublist _ _), ?_, ?_⟩
      · intro p hp
        have hp2 := mem_aerase_elim hp
        have hkey := mem_aerase_ne_key h2 hp
        refine ⟨(h3 _ hp2).1, ?_⟩
        have hq2 : p.1 ∈ head :: restQ := hperm.subset (h3 _ hp2).2
        rcases List.mem_cons.mp hq2 with he | he
        · exact absurd he hkey
        · exact he
      · intro h5 h5mem
        have h5q : h5 ∈ q.queue := hperm.symm.subset (List.mem_cons_of_mem _ h5mem)
        have hne : h5 ≠ head := fun hcon => hheadnotrest (hcon ▸ h5mem)
        rw [alookup_aerase_ne _ _ _ hne]
        exact h4 _ h5q
    · rw [if_neg hemp]
      have hlook := h4 _ hmemhead
      have hqp : (binaryHeapPush
          (TaskQueue.listLtb
            (aset q.index_tasks head (f ((alookup q.index_tasks head).getD [])).1))
          restQ head).Perm (head :: restQ) := binaryHeapPush_perm _ _ _
      refine ⟨hqp.nodup_iff.mpr hnodup2, ?_, ?_, ?_⟩
      · rw [akeys_aset_of_mem _ _ _ hlook]
        exact h2
      · intro p hp
        rcases mem_aset_elim hp with hp2 | hp2
        · subst hp2
          refine ⟨?_, hqp.symm.subset (List.mem_cons_self _ _)⟩
          intro hnil
          have hnil2 : (f ((alookup q.index_tasks head).getD [])).1 = [] := hnil
          rw [hnil2] at hemp
          exact hemp rfl
        · exact ⟨(h3 _ hp2).1, hqp.symm.subset (hperm.subset (h3 _ hp2).2)⟩
      · intro h5 h5mem
        rcases List.mem_cons.mp (hqp.subset h5mem) with he | he
        · subst he
          rw [alookup_aset_self]
          rfl
        · have hne : h5 ≠ head := fun hcon => hheadnotrest (hcon ▸ he)
          rw [alookup_aset_ne _ _ _ _ hne]
          exact h4 _ (hperm.symm.subset (List.mem_cons_of_mem _ he))

/-- An operation on the task queue: a `push` of a task, or a `mut_head` call
with an arbitrary function mutating the popped task list (the dispatcher's
`|list| list.pop()` is one instance). -/
inductive QueueOp where
  | push (t : Task)
  | mutHead (f : List PendingTask → List PendingTask × Option Unit)

/-- Apply one queue operation. -/
def applyQueueOp (q : TaskQueue) : QueueOp → TaskQueue
  | .push t => q.push t
  | .mutHead f => (q.mutHead f).2

/-- Apply a sequence of queue operations, oldest first. -/
def applyQueueOps (ops : List QueueOp) (q : TaskQueue) : TaskQueue :=
  ops.foldl applyQueueOp q

/-- C5: after any sequence of `push` and `mut_head` operations starting from
the empty queue, every task list in the priority heap is non-empty, every
handler key in the index map refers to a task list present in the heap, and a
task list emptied during `mut_head` has been removed from the map — the heap
and the map always hold the same task lists. -/
theorem queue_integrity_invariant (ops : List QueueOp) :
    QueueInv (applyQueueOps ops TaskQueue.new) := by
  have haux : ∀ (ops2 : List QueueOp) (q : TaskQueue), QueueInv q →
      QueueInv (applyQueueOps ops2 q) := by
    intro ops2
    induction ops2 with
    | nil =>
      intro q h
      exact h
    | cons op rest ih =>
      intro q h
      cases op with
      | push t => exact ih _ (queueInv_push _ _ h)
      | mutHead f => exact ih _ (queueInv_mutHead _ _ h)
  exact haux ops _ queueInv_new

/-! ## Claim C1 — pop order of the queue -/

/-- The four tasks of the spec's priority/FIFO scenario:
`(A, Background, id=1)`, `(A, UserInteractive, id=2)`,
`(B, Background, id=3)`, `(B, UserInteractive, id=4)`. -/
def scenarioTasks : List Task :=
  [Task.new "A" 1 (TaskContent.text "t1") QualityOfService.background,
    Task.new "A" 2 (TaskContent.text "t2") QualityOfService.userInteractive,
    Task.new "B" 3 (TaskContent.text "t3") QualityOfService.background,
    Task.new "B" 4 (TaskContent.text "t4") QualityOfService.userInteractive]

/-- The queue after pushing the four scenario tasks. -/
def scenarioQueue : TaskQueue := scenarioTasks.foldl TaskQueue.push TaskQueue.new

/-- The dispatcher with handlers `A` and `B` registered and the four scenario
tasks added. -/
def scenarioDispatcher : TaskDispatcher :=
  scenarioTasks.foldl (fun d t => (d.add_task t).1)
    ((TaskDispatcher.new.register_node "A").register_node "B")

/-- The ids reported by successive `process_next_task` calls (each node
execution succeeding), newest call last. -/
def processedIds : Nat → TaskDispatcher → List Nat
  | 0, _ => []
  | fuel + 1, d =>
    let r := TaskDispatcher.process_next_task (fun _ _ => ExecOutcome.success) d
    match r.sent with
    | [res] => res.id :: processedIds fuel r.dispatcher
    | _ => []

/-- The pop order of the spec's scenario, as observed through
`process_next_task`. -/
def scenarioProcessOrder : List Nat := processedIds 4 scenarioDispatcher

/-- The ids of the tasks extracted by successive `mut_head` calls with the
dispatcher's `|list| list.pop()` closure, newest call last. -/
def queuePopIds : Nat → TaskQueue → List Nat
  | 0, _ => []
  | fuel + 1, q =>
    match q.mutHead heapPop with
    | (some pt, q2) => pt.id :: queuePopIds fuel q2
    | (none, _) => []

/-- Three tasks exhibiting the stale heap root: `(A, Background, id=1)`,
`(B, Background, id=2)`, `(A, UserInteractive, id=3)`.  The second push sifts
`B` above `A` (Background id 2 beats Background id 1); the third push mutates
`A`'s heap-resident list in place without re-sifting, so `B` stays at the
root even though `A` now holds a UserInteractive task. -/
def staleTasks : List Task :=
  [Task.new "A" 1 (TaskContent.text "s1") QualityOfService.background,
    Task.new "B" 2 (TaskContent.text "s2") QualityOfService.background,
    Task.new "A" 3 (TaskContent.text "s3") QualityOfService.userInteractive]

/-- The queue after pushing the three stale-root tasks. -/
def staleQueue : TaskQueue := staleTasks.foldl TaskQueue.push TaskQueue.new

/-- Two Background tasks of one handler: `(A, Background, id=1)`,
`(A, Background, id=2)`. -/
def lifoTasks : List Task :=
  [Task.new "A" 1 (TaskContent.text "l1") QualityOfService.background,
    Task.new "A" 2 (TaskContent.text "l2") QualityOfService.background]

/-- The queue after pushing the two same-handler Background tasks. -/
def lifoQueue : TaskQueue := lifoTasks.foldl TaskQueue.push TaskQueue.new

/-- C1 counterexample: in the spec's scenario the ids are popped in the order
2, 4, 3, 1 — not 2, 4, 1, 3 as claimed.  Within one handler's list the inner
`BinaryHeap` is a max-heap and `PendingTask` ids compare in ascending order,
so the *larger* id pops first (3 before 1 is impossible only across handlers;
here 4 pops before 3 because handler `B`'s list was mutated in place).
Moreover the claimed global UserInteractive-before-Background order fails:
in the stale-root queue a Background task (id 2) pops while a UserInteractive
task (id 3) is still queued, because `push` never re-sifts the heap after
mutating a resident list. -/
theorem scenario_pop_order_not_fifo :
    scenarioProcessOrder = [2, 4, 3, 1] ∧ scenarioProcessOrder ≠ [2, 4, 1, 3] ∧
    (staleQueue.mutHead heapPop).1 =
      some { qos := QualityOfService.background, id := 2 } ∧
    ({ qos := QualityOfService.userInteractive, id := 3 } : PendingTask) ∈
      (alookup staleQueue.index_tasks "A").getD [] :=
  ⟨rfl, by decide, rfl, by decide⟩

/-- C1 amended: the popped task dominates every queued task of *its own
handler's* list: when `mut_head` pops task `pt` from the handler `h` at the
heap root, any UserInteractive task in `h`'s list forces `pt` to be
UserInteractive, and any task of `pt`'s QoS in `h`'s list has a smaller or
equal id (LIFO by id within a QoS class — two same-handler Background tasks
pop 2 then 1).  Across handlers no QoS guarantee holds, because `push`
mutates a heap-resident list in place without re-sifting, so the heap root
can be stale; in the spec's scenario the pop order of ids is 2, 4, 3, 1. -/
theorem pop_priority_order :
    (∀ (q : TaskQueue) (pt : PendingTask) (q2 : TaskQueue) (h : String)
        (l : List PendingTask),
      q.queue.head? = some h → alookup q.index_tasks h = some l →
      q.mutHead heapPop = (some pt, q2) →
      ∀ x ∈ l,
        (x.qos = QualityOfService.userInteractive →
          pt.qos = QualityOfService.userInteractive) ∧
        (x.qos = pt.qos → x.id ≤ pt.id)) ∧
    scenarioProcessOrder = [2, 4, 3, 1] ∧
    queuePopIds 2 lifoQueue = [2, 1] := by
  refine ⟨?_, rfl, rfl⟩
  intro q pt q2 h l hhead hl hpop x hx
  unfold TaskQueue.mutHead at hpop
  cases hsel : binaryHeapPop (TaskQueue.listLtb q.index_tasks) q.queue with
  | none =>
    rw [hsel] at hpop
    simp at hpop
  | some p =>
    obtain ⟨head, restQ⟩ := p
    rw [hsel] at hpop
    dsimp only at hpop
    obtain ⟨t2, hqeq, _⟩ := binaryHeapPop_spec _ _ _ _ hsel
    have hheadeq : head = h := by
      rw [hqeq] at hhead
      simpa using hhead
    subst hheadeq
    rw [hl] at hpop
    have hres : (heapPop l).2 = some pt := by
      by_cases hcase : (heapPop l).1.isEmpty = true
      · rw [if_pos (by simpa using hcase)] at hpop
        exact congrArg Prod.fst hpop
      · rw [if_neg (by simpa using hcase)] at hpop
        exact congrArg Prod.fst hpop
    cases hpl : popMaxBy PendingTask.ltb l with
    | none =>
      rw [show heapPop l = (l, none) by simp [heapPop, hpl]] at hres
      exact Option.noConfusion hres
    | some pr =>
      obtain ⟨m, rl⟩ := pr
      have hm : m = pt := by
        rw [show heapPop l = (rl, some m) by simp [heapPop, hpl]] at hres
        simpa using hres
      subst hm
      have hmax := popMaxBy_max PendingTask.heapOrder_ltb l m rl hpl x hx
      have harith := ltb_false_arith hmax
      constructor
      · intro hxui
        cases hptq : m.qos with
        | userInteractive => rfl
        | background =>
          exfalso
          apply harith
          left
          simp [hptq, hxui, QualityOfService.rank]
      · intro hq2
        have hrank : m.qos.rank = x.qos.rank := by rw [hq2]
        have hid : ¬ m.id < x.id := fun hlt => harith (Or.inr ⟨hrank, hlt⟩)
        omega

/-- C1 witness: the amended domination theorem applied to the scenario queue
after the four pushes — handler `A` is at the root, the popped task is
`(UserInteractive, 2)` and it dominates the queued task `(UserInteractive, 2)`
of handler `A`'s own list. -/
theorem pop_priority_order_witness :
    ({ qos := QualityOfService.userInteractive, id := 2 } : PendingTask).qos =
      QualityOfService.userInteractive ∧ (2 : Nat) ≤ 2 := by
  have h := pop_priority_order.1 scenarioQueue
    { qos := QualityOfService.userInteractive, id := 2 }
    (scenarioQueue.mutHead heapPop).2 "A"
    [{ qos := QualityOfService.userInteractive, id := 2 },
      { qos := QualityOfService.background, id := 1 }]
    (by decide) (by decide) (by decide)
    { qos := QualityOfService.userInteractive, id := 2 } (by decide)
  exact ⟨h.1 rfl, h.2 rfl⟩

/-! ## Claim C3 — cycle policy of `Workflow::run` -/

/-- A workflow with a cycle reachable from a start node: `S → A`, `A → B`,
`B → A`; both adjacency tables are consistent and every node is enabled and
of the registered type `mock`. -/
def wfCyc : Workflow :=
  { nodes :=
      [("S", { id := "S", node_type_name := "mock", parameters := .null, disabled := false }),
        ("A", { id := "A", node_type_name := "mock", parameters := .null, disabled := false }),
        ("B", { id := "B", node_type_name := "mock", parameters := .null, disabled := false })]
    connections_by_source := [("S", ["A"]), ("A", ["B"]), ("B", ["A"])]
    connections_by_destination := [("A", ["S", "B"]), ("B", ["A"])] }

/-- A registry with a single node type `mock` that always succeeds with a
null output. -/
def mockRegistry : WfRegistry := fun name =>
  if name = "mock" then some (fun _ => .ok .null) else none

theorem wfCyc_step_A (res : List (String × Variable)) (log : List String) :
    runStep wfCyc mockRegistry { queue := ["A"], results := res, execLog := log } =
      .next { queue := ["B"], results := aset res "A" .null, execLog := log ++ ["A"] } :=
  rfl

theorem wfCyc_step_B (res : List (String × Variable)) (log : List String) :
    runStep wfCyc mockRegistry { queue := ["B"], results := res, execLog := log } =
      .next { queue := ["A"], results := aset res "B" .null, execLog := log ++ ["B"] } :=
  rfl

theorem wfCyc_runFor_running (n : Nat) :
    ∀ (s : RunState), (s.queue = ["A"] ∨ s.queue = ["B"]) →
      (runFor wfCyc mockRegistry n s).isRunning = true := by
  induction n with
  | zero =>
    intro s _
    rfl
  | succ n ih =>
    intro s hs
    obtain ⟨qu, res, log⟩ := s
    rcases hs with hq | hq
    · simp only at hq
      subst hq
      simp only [runFor, wfCyc_step_A]
      exact ih _ (Or.inr rfl)
    · simp only at hq
      subst hq
      simp only [runFor, wfCyc_step_B]
      exact ih _ (Or.inl rfl)

/-- C3: `Workflow::run` neither rejects cyclic workflows at validation time
nor guards nodes with a single-execution flag.  On the cyclic workflow
`S → A → B → A` (with its node type registered and always succeeding), the
breadth-first loop never terminates — after any number of iterations it is
still running — and it re-visits nodes indefinitely: within the first 8
iterations node `A` has already been executed at least twice. -/
theorem workflow_run_cycles_forever :
    (∀ n, (runFor wfCyc mockRegistry n (initRunState wfCyc)).isRunning = true) ∧
    2 ≤ runningExecCount (runFor wfCyc mockRegistry 8 (initRunState wfCyc)) "A" := by
  constructor
  · intro n
    cases n with
    | zero => rfl
    | succ n =>
      have hinit : runFor wfCyc mockRegistry (n + 1) (initRunState wfCyc) =
          runFor wfCyc mockRegistry n
            { queue := ["A"], results := aset [] "S" .null, execLog := ["S"] } := by
        simp only [runFor]
        rfl
      rw [hinit]
      exact wfCyc_runFor_running n _ (Or.inl rfl)
  · decide

end AlphaFlow
